import Mathlib

/-!
Verification of the review-aggregation core of `devops-pr-code-reviewer`.

The development shallowly embeds the TypeScript sources:
  * `packages/core/src/reviewEngine.ts` (orchestrator `reviewCode`),
  * `packages/core/src/dedupe/dedupeUtils.ts` (confidence filter, exclusion
    list computation, final dedup),
  * `packages/core/src/sanitize/commentLocator.ts` (position fixer),
  * `packages/core/src/llm/openAiClient.ts` (output parsing / diagnostic
    recovery / confidence normalization).

JavaScript numbers are modelled as exact rationals (`Rat`); the code under
verification only compares, divides by 10, clamps and takes absolute
differences of them, so no floating-point rounding behaviour is relied upon.
JS `Set<string>` is modelled as a `List String` with membership insertion.
External host functionality (the `node:crypto` SHA-256 digest, the
`parse-git-diff` library's parser, and `JSON.parse`) is not code of this
repository; it enters the model either as an explicit parameter or as an
injective stand-in, documented at its definition site.
-/

namespace DevopsReviewer

/-! ## JavaScript string helpers -/

/-- First index (0-based) at which `needle` occurs as a contiguous sublist of
`hay`, scanning left to right; `none` if it does not occur.  Models the
search underlying JS `String.prototype.indexOf` / `includes`. -/
def firstIndexOfList (hay needle : List Char) : Option Nat :=
  match hay with
  | [] => if needle = [] then some 0 else none
  | _ :: t =>
    if needle.isPrefixOf hay then some 0
    else (firstIndexOfList t needle).map (· + 1)

/-- JS `hay.indexOf(needle)`: 0-based index of the first occurrence, `-1`
when absent. -/
def jsIndexOf (hay needle : String) : Int :=
  match firstIndexOfList hay.data needle.data with
  | some i => (i : Int)
  | none => -1

/-- JS `hay.includes(needle)`. -/
def jsIncludes (hay needle : String) : Bool :=
  (firstIndexOfList hay.data needle.data).isSome

/-- JS `text.slice(0, n)` for a non-negative count: the first `n` characters. -/
def jsTake (s : String) (n : Nat) : String :=
  ⟨s.data.take n⟩

/-- The characters of `s` from index `a` (inclusive) to `b` (exclusive),
0-based; models JS `s.slice(a, b)` for `0 ≤ a ≤ b`. -/
def jsSlice (s : String) (a b : Nat) : String :=
  ⟨(s.data.take b).drop a⟩

/-- Carriage return / line feed test used by the snippet splitter
(`snippet.split(/[\r\n]+/)` in `commentLocator.ts`). -/
def isNewlineChar (c : Char) : Bool :=
  c = Char.ofNat 13 || c = Char.ofNat 10

/-- Auxiliary splitter: a newline character closes the current piece, but a
newline immediately followed by another newline contributes nothing (so a
maximal newline run produces a single boundary). -/
def splitNewlineRunsAux : List Char → List (List Char)
  | [] => [[]]
  | c :: rest =>
    let r := splitNewlineRunsAux rest
    if isNewlineChar c then
      match rest with
      | d :: _ => if isNewlineChar d then r else [] :: r
      | [] => [] :: r
    else
      match r with
      | p :: ps => (c :: p) :: ps
      | [] => [[c]]

/-- JS `s.split(/[\r\n]+/)`: split on maximal runs of CR/LF characters.  As
in JS, a leading (resp. trailing) separator run produces a leading (resp.
trailing) empty piece, and the empty string yields `[""]`. -/
def splitNewlineRuns (s : String) : List String :=
  (splitNewlineRunsAux s.data).map fun p => ⟨p⟩

/-- JS `s.startsWith(pre)`. -/
def jsStartsWith (s pre : String) : Bool :=
  pre.data.isPrefixOf s.data

/-- JS `s.trim()`: strip leading and trailing whitespace (the whitespace
characters relevant here are space, tab, CR and LF). -/
def jsTrim (s : String) : String :=
  ⟨((s.data.dropWhile Char.isWhitespace).reverse.dropWhile Char.isWhitespace).reverse⟩

/-- JS `s.toUpperCase()` (ASCII upper-casing). -/
def jsToUpper (s : String) : String :=
  ⟨s.data.map Char.toUpper⟩

/-! ## Data model (`packages/core/src/types.ts`, `packages/core/src/llm/types.ts`)

Numeric JS fields (`line`, `offset`, `commentType`, `status`, confidence
scores and thresholds) are modelled as `Rat`. -/

/-- Model of `Position` from `types.ts`: line/offset plus the optional snippet text. -/
structure Position where
  line : Rat
  offset : Rat
  snippet : Option String := none
deriving DecidableEq, Repr

/-- Model of `ThreadContext` from `types.ts`.  The source stores the four corner
positions as independent optional fields, but the data model populates a
side's start and end together (`optional leftFileStart/End`), so each side is
modelled as an optional (start, end) pair. -/
structure ThreadContext where
  filePath : String
  left : Option (Position × Position) := none
  right : Option (Position × Position) := none
deriving DecidableEq, Repr

/-- Model of `ReviewComment` from `types.ts`. -/
structure ReviewComment where
  content : String
  commentType : Rat
  confidenceScore : Option Rat := none
  confidenceScoreJustification : Option String := none
  fixSuggestion : Option String := none
  issueType : Option String := none
deriving DecidableEq, Repr

/-- Model of `ReviewThread` from `llm/types.ts`. -/
structure ReviewThread where
  comments : List ReviewComment
  status : Rat
  threadContext : ThreadContext
deriving DecidableEq, Repr

/-- Severity levels of a `Finding` (`'low' | 'medium' | 'high' | 'critical'`). -/
inductive Severity where
  | low
  | medium
  | high
  | critical
deriving DecidableEq, Repr

/-- Model of `Finding` from `types.ts`. -/
structure Finding where
  id : String
  filePath : String
  lineStart : Option Rat := none
  lineEnd : Option Rat := none
  severity : Severity
  category : Option String := none
  title : String
  content : String
  confidence : Option Rat := none
  suggestion : Option String := none
  threadContext : Option ThreadContext := none
  sourceThread : Option ReviewThread := none
deriving DecidableEq, Repr

/-- Model of `PreviousComment` from `types.ts`. -/
structure PreviousComment where
  id : Option String := none
  filePath : Option String := none
  content : String
  line : Option Rat := none
deriving DecidableEq, Repr

/-- Model of `ReviewPolicy.checks`. -/
structure PolicyChecks where
  bugs : Bool
  performance : Bool
  bestPractices : Bool
deriving DecidableEq, Repr

/-- Model of `ReviewPolicy.confidence`. -/
structure ConfidencePolicy where
  enabled : Bool
  minimum : Rat
deriving DecidableEq, Repr

/-- Model of `ReviewPolicy.dedupeAcrossFiles`. -/
structure DedupeAcrossFilesPolicy where
  enabled : Bool
  threshold : Rat
deriving DecidableEq, Repr

/-- Model of `ReviewPolicy.prompts`. -/
structure PromptsPolicy where
  additional : List String
  systemPrompt : Option String := none
deriving DecidableEq, Repr

/-- Model of `ReviewPolicy` from `types.ts`. -/
structure ReviewPolicy where
  checks : PolicyChecks
  modifiedLinesOnly : Bool
  confidence : ConfidencePolicy
  dedupeAcrossFiles : DedupeAcrossFilesPolicy
  prompts : PromptsPolicy
deriving DecidableEq, Repr

/-- Model of `FileDiff` from `types.ts` (the optional `changeType` is unused by the
engine and omitted). -/
structure FileDiff where
  path : String
  diff : String
deriving DecidableEq, Repr

/-- Model of `ReviewInput` from `types.ts`; the `target` metadata field is never read
by `reviewCode` and is omitted. -/
structure ReviewInput where
  files : List FileDiff
  policy : ReviewPolicy
  previousComments : Option (List PreviousComment) := none
deriving DecidableEq, Repr

/-- Model of `ReviewReport` from `types.ts`.  `filteredOut` is optional in the source
type but always populated by `reviewCode`, so it is modelled as a list. -/
structure ReviewReport where
  summaryMarkdown : String
  findings : List Finding
  filteredOut : List Finding
deriving DecidableEq, Repr

/-- Model of `ReviewSummary` from `types.ts`.  The counts are list lengths. -/
structure ReviewSummary where
  total : Nat
  filtered : Nat
  remaining : Nat
deriving DecidableEq, Repr

/-- Options carried by `LlmReviewRequest` (`llm/types.ts`). -/
structure LlmRequestOptions where
  checks : PolicyChecks
  modifiedLinesOnly : Bool
  additionalPrompts : List String
  confidenceMode : Bool
  systemPrompt : Option String := none
deriving DecidableEq, Repr

/-- Model of `LlmReviewRequest` from `llm/types.ts`. -/
structure LlmReviewRequest where
  filePath : String
  diff : String
  existingComments : List String
  options : LlmRequestOptions
deriving DecidableEq, Repr

/-- Model of `LlmReviewResponse` from `llm/types.ts`. -/
structure LlmReviewResponse where
  threads : List ReviewThread
deriving DecidableEq, Repr

/-! ## Dedupe utilities (`packages/core/src/dedupe/dedupeUtils.ts`) -/

/-- Model of `filterCommentsByConfidence`: partitions comments, dropping those with a
defined confidence score strictly below `confidenceMinimum`.  Returns
(filteredOut, remaining) in the source's field order. -/
def filterCommentsByConfidence (comments : List ReviewComment) (confidenceMinimum : Rat) :
    List ReviewComment × List ReviewComment :=
  match comments with
  | [] => ([], [])
  | c :: rest =>
    let (fo, rem) := filterCommentsByConfidence rest confidenceMinimum
    match c.confidenceScore with
    | some score => if score < confidenceMinimum then (c :: fo, rem) else (fo, c :: rem)
    | none => (fo, c :: rem)

/-- Model of `filterCommentsByPolicy`: confidence filtering gated on
`policy.confidence.enabled`. -/
def filterCommentsByPolicy (comments : List ReviewComment) (policy : ReviewPolicy) :
    List ReviewComment × List ReviewComment :=
  if policy.confidence.enabled then
    filterCommentsByConfidence comments policy.confidence.minimum
  else
    ([], comments)

/-- Model of `getCommentContentForExclusion`: computes the exclusion list for the
current file from this file's previous comments, the accumulated run
comments, and the cross-file dedupe latch; returns the exclusion content and
the updated latch flag. -/
def getCommentContentForExclusion (fileComments runComments : List ReviewComment)
    (policy : ReviewPolicy) (deduplicationCriteriaMet : Bool) : List String × Bool :=
  if policy.dedupeAcrossFiles.enabled then
    let dedupeMet :=
      if deduplicationCriteriaMet then
        true
      else
        let currentRunCommentCount := (filterCommentsByPolicy runComments policy).2.length
        decide ((currentRunCommentCount : Rat) > policy.dedupeAcrossFiles.threshold)
    let commentsForExclusion :=
      if dedupeMet then fileComments ++ runComments else fileComments
    (commentsForExclusion.map (·.content), dedupeMet)
  else
    (fileComments.map (·.content), deduplicationCriteriaMet)

/-- Stand-in for the hex digest of SHA-256 from `node:crypto`
(`createHash('sha256').update(s).digest('hex')`).  The digest is external
host functionality, not code of this repository; the engine relies only on it
being a deterministic function of its input that separates distinct inputs,
so it is modelled as an injective encoding (the identity). -/
def sha256Hex (s : String) : String := s

/-- Model of `buildFindingSignature`: deterministic signature of
`(filePath ?? '') ++ '|' ++ content.trim()`.  (The `lineStart`/`lineEnd`
fields of the source's input type are unused by the hash.) -/
def buildFindingSignature (filePath : Option String) (content : String) : String :=
  sha256Hex ((filePath.getD "") ++ "|" ++ jsTrim content)

/-- Model of `applyConfidenceFilterToFindings`: returns (remaining, filteredOut); when
confidence filtering is disabled nothing is filtered. -/
def applyConfidenceFilterToFindings (findings : List Finding) (policy : ReviewPolicy) :
    List Finding × List Finding :=
  if policy.confidence.enabled then
    go findings
  else
    (findings, [])
where
  /-- The source's accumulation loop over `findings`. -/
  go : List Finding → List Finding × List Finding
  | [] => ([], [])
  | f :: rest =>
    let (rem, fo) := go rest
    match f.confidence with
    | some c => if c < policy.confidence.minimum then (rem, f :: fo) else (f :: rem, fo)
    | none => (f :: rem, fo)

/-- The signature used for a finding inside `dedupeAgainstPrevious`: its `id`
when non-empty, otherwise the computed content signature. -/
def findingSignature (f : Finding) : String :=
  if f.id.length ≠ 0 then f.id else buildFindingSignature (some f.filePath) f.content

/-- Result of `dedupeAgainstPrevious`: kept findings, removed findings, and
the updated run-level signature set (the source mutates a `Set<string>`,
modelled as returning the grown list). -/
structure DedupeResult where
  deduped : List Finding
  removed : List Finding
  seen : List String
deriving DecidableEq, Repr

/-- The iteration of `dedupeAgainstPrevious` over `findings`, threading the
run-level signature set. -/
def dedupeLoop (previousSignatures : List String) :
    List Finding → List String → DedupeResult
  | [], seen => ⟨[], [], seen⟩
  | f :: rest, seen =>
    let signature := findingSignature f
    if seen.contains signature || previousSignatures.contains signature then
      let r := dedupeLoop previousSignatures rest seen
      ⟨r.deduped, f :: r.removed, r.seen⟩
    else
      let r := dedupeLoop previousSignatures rest (signature :: seen)
      ⟨{ f with id := signature } :: r.deduped, r.removed, r.seen⟩

/-- Model of `dedupeAgainstPrevious`: drops findings whose signature occurs among the
caller-supplied previous comments or was already seen in this run; kept
findings get their signature as `id` and the signature joins the run set. -/
def dedupeAgainstPrevious (findings : List Finding)
    (previousComments : Option (List PreviousComment)) (seenSignatures : List String) :
    DedupeResult :=
  let previousSignatures :=
    (previousComments.getD []).map fun c => buildFindingSignature c.filePath c.content
  dedupeLoop previousSignatures findings seenSignatures

/-! ## Parsed diff model (types of the external `parse-git-diff` library)

`commentLocator.ts` consumes the output of the external `parse-git-diff`
parser.  The library itself is not code of this repository; its result type
(`GitDiff` → files → chunks → line changes tagged Added / Deleted /
Unchanged, each carrying content and old/new line numbers) is embedded here
and every theorem quantifies over (or exhibits) parsed diffs. -/

/-- One line-level record of a parsed diff (`AnyLineChange`). -/
inductive AnyLineChange where
  | added (content : String) (lineAfter : Rat)
  | deleted (content : String) (lineBefore : Rat)
  | unchanged (content : String) (lineBefore lineAfter : Rat)
deriving DecidableEq, Repr

/-- The text content of a line change. -/
def AnyLineChange.content : AnyLineChange → String
  | .added c _ => c
  | .deleted c _ => c
  | .unchanged c _ _ => c

/-- Model of `AnyChunk`: a chunk either carries line changes or is a binary-file
chunk without a `changes` field. -/
inductive AnyChunk where
  | chunk (changes : List AnyLineChange)
  | binary
deriving DecidableEq, Repr

/-- One file of a parsed diff. -/
structure GitDiffFile where
  chunks : List AnyChunk
deriving DecidableEq, Repr

/-- The root of a parsed diff (`GitDiff`). -/
structure GitDiff where
  files : List GitDiffFile
deriving DecidableEq, Repr

/-! ## Position fixer (`packages/core/src/sanitize/commentLocator.ts`) -/

/-- Model of `getLineNumber`: the side-appropriate line number of a diff record, which
is `undefined` (here `none`) when the record type does not carry a number for
that side. -/
def getLineNumber (diffLineMeta : AnyLineChange) (isRightSide : Bool) : Option Rat :=
  if isRightSide then
    match diffLineMeta with
    | .added _ lineAfter => some lineAfter
    | .unchanged _ _ lineAfter => some lineAfter
    | .deleted _ _ => none
  else
    match diffLineMeta with
    | .deleted _ lineBefore => some lineBefore
    | .unchanged _ lineBefore _ => some lineBefore
    | .added _ _ => none

/-- Model of `getChangesFromDiff`: the line changes of the FIRST parsed file only;
empty when the diff has no files.  Binary chunks contribute nothing
(`'changes' in chunk` guard). -/
def getChangesFromDiff (diff : GitDiff) : List AnyLineChange :=
  match diff.files with
  | [] => []
  | f :: _ =>
    f.chunks.flatMap fun ch =>
      match ch with
      | .chunk changes => changes
      | .binary => []

/-- Model of `filterChanges`: candidates are records whose content contains the search
text and whose type is Unchanged or the side-appropriate changed type. -/
def filterChanges (changes : List AnyLineChange) (searchText : String)
    (shouldSearchRightSide : Bool) : List AnyLineChange :=
  changes.filter fun change =>
    jsIncludes change.content searchText &&
      (match change with
       | .unchanged _ _ _ => true
       | .added _ _ => shouldSearchRightSide
       | .deleted _ _ => !shouldSearchRightSide)

/-- The comparison step of `findClosestLine`'s reduce: take `current` exactly
when its distance to the original line number is strictly smaller than the
incumbent's.  A missing side line number behaves like JS `NaN`: every `<`
comparison involving it is false, so the incumbent is kept. -/
def closerLine (originalLineNumber : Rat) (shouldSearchRightSide : Bool)
    (previous current : AnyLineChange) : AnyLineChange :=
  match getLineNumber current shouldSearchRightSide,
        getLineNumber previous shouldSearchRightSide with
  | some c, some p =>
    if |c - originalLineNumber| < |p - originalLineNumber| then current else previous
  | _, _ => previous

/-- Model of `findClosestLine`: `lines.reduce(..., lines[0])` — the first candidate
whose side line number is numerically closest to the approximate line; ties
keep the earlier candidate.  (JS `reduce` with an initial value also visits
`lines[0]` itself; that first step is a no-op.) -/
def findClosestLine (lines : List AnyLineChange) (originalLineNumber : Rat)
    (shouldSearchRightSide : Bool) : Option AnyLineChange :=
  match lines with
  | [] => none
  | l :: _ =>
    some (lines.foldl (closerLine originalLineNumber shouldSearchRightSide) l)

/-- Model of `getGitDiffLine`: filter the first file's changes, then pick the closest
candidate. -/
def getGitDiffLine (diff : GitDiff) (searchText : String) (originalLineNumber : Rat)
    (shouldSearchRightSide : Bool) : Option AnyLineChange :=
  findClosestLine (filterChanges (getChangesFromDiff diff) searchText shouldSearchRightSide)
    originalLineNumber shouldSearchRightSide

/-- Model of `getLineNumberAndOffset`: the matched record's side line number and the
1-based index of the search text within its content.  `none` when there is no
match. -/
def getLineNumberAndOffset (parsedDiff : GitDiff) (searchText : String)
    (originalLineNumber : Rat) (shouldSearchRightSide : Bool) : Option (Rat × Rat) :=
  match getGitDiffLine parsedDiff searchText originalLineNumber shouldSearchRightSide with
  | none => none
  | some line =>
    match getLineNumber line shouldSearchRightSide with
    | none => none
    | some lineNumber => some (lineNumber, (jsIndexOf line.content searchText : Rat) + 1)

/-- Model of `updateFileEndForMultilineSnippet`: re-run the search with the last
snippet line (the reference line number is `fileEnd.line`, which the caller
has just set to the matched first-line number) and move the end position to
that match; on no match the end position is left as already set. -/
def updateFileEndForMultilineSnippet (fileEnd : Position) (snippets : List String)
    (parsedDiff : GitDiff) (isRightSide : Bool) : Position :=
  let snippetLast := snippets.getLastD ""
  match getLineNumberAndOffset parsedDiff snippetLast fileEnd.line isRightSide with
  | none => fileEnd
  | some (lastLineNumber, lastLineOffset) =>
    { fileEnd with line := lastLineNumber,
                   offset := lastLineOffset + (snippetLast.length : Rat) }

/-- Model of `updateFileStartAndEnd`: match the first snippet line against the diff,
move start and end onto the matched record (end offset = start offset +
first-line length), then adjust the end again for multiline snippets.  When
the first-line search fails both positions are returned untouched. -/
def updateFileStartAndEnd (fileStart fileEnd : Position) (parsedDiff : GitDiff)
    (isRightSide : Bool) : Position × Position :=
  let snippets := splitNewlineRuns (fileStart.snippet.getD "")
  let isMultilineSnippet := snippets.length > 1
  let snippetFirst := snippets.headD ""
  match getLineNumberAndOffset parsedDiff snippetFirst fileStart.line isRightSide with
  | none => (fileStart, fileEnd)
  | some (lineNumber, offset) =>
    let fileStart' := { fileStart with line := lineNumber, offset := offset }
    let fileEnd' :=
      { fileEnd with line := lineNumber, offset := offset + (snippetFirst.length : Rat) }
    if isMultilineSnippet then
      (fileStart', updateFileEndForMultilineSnippet fileEnd' snippets parsedDiff isRightSide)
    else
      (fileStart', fileEnd')

/-- Model of `fixThreadContextLineNumberAndOffsets`: correct one side of a thread
context; sides whose start carries no (non-empty) snippet are skipped. -/
def fixThreadContextLineNumberAndOffsets (threadContext : ThreadContext)
    (parsedDiff : GitDiff) (isRightSide : Bool) : ThreadContext :=
  let side := if isRightSide then threadContext.right else threadContext.left
  match side with
  | none => threadContext
  | some (fileStart, fileEnd) =>
    match fileStart.snippet with
    | none => threadContext
    | some snip =>
      if snip.length ≠ 0 then
        let updated := updateFileStartAndEnd fileStart fileEnd parsedDiff isRightSide
        if isRightSide then { threadContext with right := some updated }
        else { threadContext with left := some updated }
      else
        threadContext

/-- Model of `fixThreadPositions`: correct both sides of every thread's context
against the parsed diff.  The source applies the external `parse-git-diff`
parser to the raw diff text first; here the parsed diff is the argument. -/
def fixThreadPositions (threads : List ReviewThread) (parsedDiff : GitDiff) :
    List ReviewThread :=
  threads.map fun thread =>
    { thread with
        threadContext :=
          fixThreadContextLineNumberAndOffsets
            (fixThreadContextLineNumberAndOffsets thread.threadContext parsedDiff true)
            parsedDiff false }

/-! ## Review engine (`packages/core/src/reviewEngine.ts`)

The injected LLM capability (`llmClient.reviewCode`, an async call) is
modelled as a pure function `llm : LlmReviewRequest → LlmReviewResponse`, and
the external `parse-git-diff` parser applied to `file.diff` is the parameter
`parse : String → GitDiff`. -/

/-- Model of `normalizePath`: ensure the path starts with a leading slash. -/
def normalizePath (path : String) : String :=
  if jsStartsWith path "/" then path else "/" ++ path

/-- Model of `buildLlmRequest`: the request payload sent to the LLM client. -/
def buildLlmRequest (filePath diff : String) (existingComments : List String)
    (policy : ReviewPolicy) : LlmReviewRequest where
  filePath := normalizePath filePath
  diff := diff
  existingComments := existingComments
  options :=
    { checks := policy.checks
      modifiedLinesOnly := policy.modifiedLinesOnly
      additionalPrompts := policy.prompts.additional
      confidenceMode := policy.confidence.enabled
      systemPrompt := policy.prompts.systemPrompt }

/-- Model of `deriveLineRange`: simple line range from the thread context, preferring
the right (new) side. -/
def deriveLineRange (ctx : Option ThreadContext) : Option Rat × Option Rat :=
  match ctx with
  | none => (none, none)
  | some c =>
    let start :=
      match c.right with
      | some (s, _) => some s.line
      | none => (c.left.map fun (s, _) => s.line)
    let «end» :=
      match c.right with
      | some (_, e) => some e.line
      | none => (c.left.map fun (_, e) => e.line)
    (start, «end»)

/-- Model of `deriveSeverity`: severity from the upper-cased issue type. -/
def deriveSeverity (issueType : Option String) : Severity :=
  let u := jsToUpper (issueType.getD "")
  if u = "SECURITY" then .critical
  else if u = "BUG" then .high
  else if u = "PERFORMANCE" then .high
  else if u = "BEST_PRACTICE" then .medium
  else .medium

/-- Model of `threadToFindings`: flatten one thread into one finding per comment. -/
def threadToFindings (thread : ReviewThread) (filePath : String) : List Finding :=
  let range := deriveLineRange (some thread.threadContext)
  thread.comments.map fun comment =>
    { id := ""
      filePath := filePath
      lineStart := range.1
      lineEnd := range.2
      severity := deriveSeverity comment.issueType
      category := comment.issueType
      title := comment.issueType.getD "Code review"
      content := comment.content
      confidence := comment.confidenceScore
      suggestion := comment.fixSuggestion
      threadContext := some thread.threadContext
      sourceThread := some thread }

/-- Model of `computeSummary`: total/filtered/remaining counts. -/
def computeSummary (findings filteredOut : List Finding) : ReviewSummary where
  total := findings.length + filteredOut.length
  filtered := filteredOut.length
  remaining := findings.length

/-- Model of `summarize`: the fixed summary sentence. -/
def summarize (summary : ReviewSummary) : String :=
  "Findings: " ++ toString summary.remaining ++ " (" ++ toString summary.filtered ++
    " filtered out, total generated " ++ toString summary.total ++ ")."

/-- Model of `stripSourceThreads`: drop the `sourceThread` backlink from both result
lists. -/
def stripSourceThreads (report : ReviewReport) : ReviewReport where
  summaryMarkdown := report.summaryMarkdown
  findings := report.findings.map fun f => { f with sourceThread := none }
  filteredOut := report.filteredOut.map fun f => { f with sourceThread := none }

/-- The per-invocation mutable state of `reviewCode`'s file loop. -/
structure RunState where
  findings : List Finding
  filteredOut : List Finding
  runComments : List ReviewComment
  seenSignatures : List String
  dedupeCriteriaMet : Bool
deriving DecidableEq, Repr

/-- The initial run state: all accumulators empty, latch unset. -/
def RunState.initial : RunState :=
  ⟨[], [], [], [], false⟩

/-- The previous comments attached to one file: those whose normalized path
equals the file's normalized path, reshaped as `ReviewComment`s
(`reviewEngine.ts` lines 183-185). -/
def previousFileCommentsFor (previousComments : Option (List PreviousComment))
    (path : String) : List ReviewComment :=
  ((previousComments.getD []).filter fun c =>
      normalizePath (c.filePath.getD "") = normalizePath path).map
    fun c => ({ content := c.content, commentType := 0 } : ReviewComment)

/-- The sanitized (position-fixed) threads the engine obtains for one file,
given the run state (which determines the exclusion list sent to the LLM). -/
def fileSanitizedThreads (parse : String → GitDiff)
    (llm : LlmReviewRequest → LlmReviewResponse) (policy : ReviewPolicy)
    (previousComments : Option (List PreviousComment)) (st : RunState)
    (file : FileDiff) : List ReviewThread :=
  let exclusion :=
    getCommentContentForExclusion (previousFileCommentsFor previousComments file.path)
      st.runComments policy st.dedupeCriteriaMet
  let request := buildLlmRequest file.path file.diff exclusion.1 policy
  fixThreadPositions (llm request).threads (parse file.diff)

/-- The findings generated for one file: the sanitized threads flattened with
the file's normalized path. -/
def fileThreadFindings (parse : String → GitDiff)
    (llm : LlmReviewRequest → LlmReviewResponse) (policy : ReviewPolicy)
    (previousComments : Option (List PreviousComment)) (st : RunState)
    (file : FileDiff) : List Finding :=
  (fileSanitizedThreads parse llm policy previousComments st file).flatMap
    fun thread => threadToFindings thread (normalizePath file.path)

/-- The body of `reviewCode`'s `for (const file of input.files)` loop for a
single file. -/
def processFile (parse : String → GitDiff) (llm : LlmReviewRequest → LlmReviewResponse)
    (policy : ReviewPolicy) (previousComments : Option (List PreviousComment))
    (st : RunState) (file : FileDiff) : RunState :=
  let exclusion :=
    getCommentContentForExclusion (previousFileCommentsFor previousComments file.path)
      st.runComments policy st.dedupeCriteriaMet
  let sanitizedThreads := fileSanitizedThreads parse llm policy previousComments st file
  let currentRunComments := sanitizedThreads.flatMap (·.comments)
  let threadFindings := fileThreadFindings parse llm policy previousComments st file
  let confidence := applyConfidenceFilterToFindings threadFindings policy
  let dd := dedupeAgainstPrevious confidence.1 previousComments st.seenSignatures
  { findings := st.findings ++ dd.deduped
    filteredOut := st.filteredOut ++ confidence.2 ++ dd.removed
    runComments := st.runComments ++ currentRunComments
    seenSignatures := dd.seen
    dedupeCriteriaMet := exclusion.2 }

/-- Model of `reviewCode`: the core entry point.  An empty file list short-circuits to
the fixed empty report; otherwise each file is processed in order and the
stripped report with the computed summary is returned. -/
def reviewCode (parse : String → GitDiff) (input : ReviewInput)
    (llm : LlmReviewRequest → LlmReviewResponse) : ReviewReport :=
  if input.files.isEmpty then
    { summaryMarkdown := "No files to review.", findings := [], filteredOut := [] }
  else
    let final := input.files.foldl
      (processFile parse llm input.policy input.previousComments) RunState.initial
    let summary := computeSummary final.findings final.filteredOut
    stripSourceThreads
      { summaryMarkdown := summarize summary
        findings := final.findings
        filteredOut := final.filteredOut }

/-! ## LLM gateway output handling (`packages/core/src/llm/openAiClient.ts`)

`OpenAiLlmClient.reviewCode` sends the prompts over the network and then
parses the completion text.  The network call and the host's `JSON.parse`
are external; the post-call handling of the raw completion text is embedded
below, with `JSON.parse` as an explicit parameter `parseJson` returning
`none` where `JSON.parse` would throw. -/

/-- JSON values as produced by the host's `JSON.parse`. -/
inductive Json where
  | null
  | bool (b : Bool)
  | num (q : Rat)
  | str (s : String)
  | arr (elements : List Json)
  | obj (fields : List (String × Json))

/-- JS property access `v.name`: a field lookup on objects, `undefined`
(here `none`) on everything else. -/
def Json.getField : Json → String → Option Json
  | .obj fields, name => (fields.find? fun p => p.1 = name).map (·.2)
  | _, _ => none

/-- JS truthiness of a JSON value (`null`, `false`, `0` and `""` are falsy). -/
def Json.truthy : Json → Bool
  | .null => false
  | .bool b => b
  | .num q => q ≠ 0
  | .str s => s ≠ ""
  | .arr _ => true
  | .obj _ => true

/-- Largest 0-based index at which `needle` occurs in `hay`, `none` if it
does not occur; underlies JS `String.prototype.lastIndexOf`. -/
def lastIndexOfList (hay needle : List Char) : Option Nat :=
  ((List.range (hay.length + 1)).filter fun i => needle.isPrefixOf (hay.drop i)).getLast?

/-- JS `hay.lastIndexOf(needle)`: 0-based index of the last occurrence, `-1`
when absent. -/
def jsLastIndexOf (hay needle : String) : Int :=
  match lastIndexOfList hay.data needle.data with
  | some i => (i : Int)
  | none => -1

/-- Model of `tryExtractJsonObject`: the substring from the first opening brace to the
last closing brace (inclusive), `none` when either brace is absent or the
last closing brace does not come after the first opening one. -/
def tryExtractJsonObject (text : String) : Option String :=
  let start := jsIndexOf text "\x7b"
  let stop := jsLastIndexOf text "\x7d"
  if start = -1 || stop = -1 || stop ≤ start then none
  else some (jsSlice text start.toNat (stop.toNat + 1))

/-- Model of `isValidReviewThread`: the value must be truthy, its `status` a number,
its `threadContext.filePath` truthy (optional chaining), and its `comments`
an array. -/
def isValidReviewThread (value : Json) : Bool :=
  value.truthy &&
    (match value.getField "status" with
     | some (.num _) => true
     | _ => false) &&
    (match value.getField "threadContext" with
     | some tc =>
       (match tc.getField "filePath" with
        | some fp => fp.truthy
        | none => false)
     | none => false) &&
    (match value.getField "comments" with
     | some (.arr _) => true
     | _ => false)

/-- Model of `isValidResponse`: a truthy value whose `threads` field is an array of
valid review threads. -/
def isValidResponse (response : Json) : Bool :=
  response.truthy &&
    (match response.getField "threads" with
     | some (.arr threads) => threads.all isValidReviewThread
     | _ => false)

/-- Model of `normalizeConfidence`: missing stays missing, scores above 1 are scaled
down by 10, and the result is clamped to the unit interval. -/
def normalizeConfidence (score : Option Rat) : Option Rat :=
  match score with
  | none => none
  | some s =>
    if s > 1 then some (max 0 (min 1 (s / 10)))
    else some (max 0 (min 1 s))

/-- Model of `diagnosticThread`: the synthetic single-thread response used when the
model output cannot be used. -/
def diagnosticThread (filePath issueType content : String) : LlmReviewResponse :=
  let P1 : Position := { line := 1, offset := 1 }
  let threadContext : ThreadContext :=
    { filePath := filePath, left := some (P1, P1), right := some (P1, P1) }
  let comment : ReviewComment :=
    { content := content
      commentType := 0
      issueType := some issueType
      confidenceScore := some 1
      confidenceScoreJustification := some "Diagnostic message produced by the tool."
      fixSuggestion := some "Inspect the raw LLM output and adjust the prompt/schema." }
  { threads := [{ status := 1, threadContext := threadContext, comments := [comment] }] }

/-- Decodes one parsed JSON comment into the duck-typed `ReviewComment` the
source passes along unchanged.  Shape validation does not constrain comment
fields, so absent or differently-typed fields decode to their JS-`undefined`
(`none`) counterparts; only the fields the engine reads are relevant. -/
def jsonToComment (j : Json) : ReviewComment where
  content :=
    match j.getField "content" with
    | some (.str s) => s
    | _ => ""
  commentType :=
    match j.getField "commentType" with
    | some (.num q) => q
    | _ => 0
  confidenceScore :=
    match j.getField "confidenceScore" with
    | some (.num q) => some q
    | _ => none
  confidenceScoreJustification :=
    match j.getField "confidenceScoreJustification" with
    | some (.str s) => some s
    | _ => none
  fixSuggestion :=
    match j.getField "fixSuggestion" with
    | some (.str s) => some s
    | _ => none
  issueType :=
    match j.getField "issueType" with
    | some (.str s) => some s
    | _ => none

/-- Decodes a parsed JSON position object. -/
def jsonToPosition (j : Json) : Position where
  line :=
    match j.getField "line" with
    | some (.num q) => q
    | _ => 0
  offset :=
    match j.getField "offset" with
    | some (.num q) => q
    | _ => 0
  snippet :=
    match j.getField "snippet" with
    | some (.str s) => some s
    | _ => none

/-- Decodes one side (start/end pair) of a parsed thread context. -/
def jsonToSide (tc : Json) (startName endName : String) : Option (Position × Position) :=
  match tc.getField startName, tc.getField endName with
  | some s, some e => some (jsonToPosition s, jsonToPosition e)
  | _, _ => none

/-- Decodes a parsed JSON thread (shape-validated) into `ReviewThread`. -/
def jsonToThread (j : Json) : ReviewThread where
  status :=
    match j.getField "status" with
    | some (.num q) => q
    | _ => 0
  threadContext :=
    match j.getField "threadContext" with
    | some tc =>
      { filePath :=
          match tc.getField "filePath" with
          | some (.str s) => s
          | _ => ""
        left := jsonToSide tc "leftFileStart" "leftFileEnd"
        right := jsonToSide tc "rightFileStart" "rightFileEnd" }
    | none => { filePath := "" }
  comments :=
    match j.getField "comments" with
    | some (.arr cs) => cs.map jsonToComment
    | _ => []

/-- Normalizes every comment's confidence score in the parsed threads (the
source's in-place loop over `parsed.threads`). -/
def normalizeThreadConfidences (threads : List ReviewThread) : List ReviewThread :=
  threads.map fun t =>
    { t with
        comments := t.comments.map fun c =>
          { c with confidenceScore := normalizeConfidence c.confidenceScore } }

/-- The handling of the raw completion text in `OpenAiLlmClient.reviewCode`
(lines 60-105): extract the outermost JSON object, parse it with the host's
`JSON.parse` (the parameter `parseJson`, `none` where it throws), validate
the shape, normalize confidences — and degrade to a diagnostic thread when
extraction, parsing, or validation fails. -/
def openAiHandleModelOutput (parseJson : String → Option Json) (filePath choice : String) :
    LlmReviewResponse :=
  match tryExtractJsonObject choice with
  | none =>
    diagnosticThread filePath "BUG"
      ("LLM_OUTPUT_PARSE_ERROR: No JSON object found in output. Output snippet:\n" ++
        jsTake choice 800)
  | some extractedJson =>
    match parseJson extractedJson with
    | none =>
      diagnosticThread filePath "BUG"
        ("LLM_OUTPUT_PARSE_ERROR: Failed to parse JSON. Output snippet:\n" ++
          jsTake choice 800)
    | some parsed =>
      if isValidResponse parsed then
        { threads :=
            normalizeThreadConfidences
              (match parsed.getField "threads" with
               | some (.arr threads) => threads.map jsonToThread
               | _ => []) }
      else
        diagnosticThread filePath "BUG" "LLM_OUTPUT_INVALID_SHAPE: missing threads[]"

/-! ## C8: confidence normalization -/

/-- C8: `normalizeConfidence` keeps a missing score missing, divides every
score strictly greater than 1 by 10 (then clamps), clamps every result to
the unit interval, and in particular maps 8 to 0.8, 1.4 to 0.14 and -0.2
to 0. -/
theorem normalizeConfidence_spec :
    normalizeConfidence none = none ∧
    (∀ s : Rat, s > 1 → normalizeConfidence (some s) = some (max 0 (min 1 (s / 10)))) ∧
    (∀ s q : Rat, normalizeConfidence (some s) = some q → 0 ≤ q ∧ q ≤ 1) ∧
    normalizeConfidence (some 8) = some (8 / 10) ∧
    normalizeConfidence (some (14 / 10)) = some (14 / 100) ∧
    normalizeConfidence (some (-2 / 10)) = some 0 := by
  refine ⟨rfl, ?_, ?_, ?_, ?_, ?_⟩
  · intro s hs
    simp [normalizeConfidence, hs]
  · intro s q h
    simp only [normalizeConfidence] at h
    split_ifs at h with h1 <;>
      · simp only [Option.some.injEq] at h
        subst h
        constructor
        · exact le_max_left 0 _
        · exact max_le (by norm_num) (min_le_left 1 _)
  · simp only [normalizeConfidence]
    norm_num
  · simp only [normalizeConfidence]
    norm_num
  · simp only [normalizeConfidence]
    norm_num

/-- Witness for C8: instantiates the conditional clauses at the concrete
scores 2 (for the scale-down branch) and 8 (for the clamping bound). -/
theorem normalizeConfidence_spec_witness :
    normalizeConfidence (some 2) = some (max 0 (min 1 (2 / 10))) ∧
    (0 ≤ (4 : Rat) / 5 ∧ (4 : Rat) / 5 ≤ 1) :=
  ⟨normalizeConfidence_spec.2.1 2 (by norm_num),
   normalizeConfidence_spec.2.2.1 8 (4 / 5)
     (by simp only [normalizeConfidence]; norm_num)⟩

/-! ## C4: exclusion-list computation and the cross-file dedupe latch -/

/-- C4: for each file, `getCommentContentForExclusion` returns just the
file's previous comments when cross-file dedup is disabled; previous plus
all accumulated run comments when the (output) latch is set; the latch
output equals `latchIn OR (enabled AND count > threshold)` where `count` is
the number of run comments currently passing the confidence filter, so with
dedup enabled it becomes newly set exactly when it was not set and the
count strictly exceeds the threshold; and the latch is monotonic. -/
theorem getCommentContentForExclusion_spec (fileComments runComments : List ReviewComment)
    (policy : ReviewPolicy) (latchIn : Bool) :
    let r := getCommentContentForExclusion fileComments runComments policy latchIn
    let count := (filterCommentsByPolicy runComments policy).2.length
    (r.2 = (latchIn ||
      (policy.dedupeAcrossFiles.enabled &&
        decide ((count : Rat) > policy.dedupeAcrossFiles.threshold)))) ∧
    (policy.dedupeAcrossFiles.enabled = false → r.1 = fileComments.map (·.content)) ∧
    (policy.dedupeAcrossFiles.enabled = true → r.2 = true →
      r.1 = (fileComments ++ runComments).map (·.content)) ∧
    (policy.dedupeAcrossFiles.enabled = true → r.2 = false →
      r.1 = fileComments.map (·.content)) ∧
    (latchIn = true → r.2 = true) ∧
    (policy.dedupeAcrossFiles.enabled = true →
      ((r.2 = true ∧ latchIn = false) ↔
        (latchIn = false ∧ (count : Rat) > policy.dedupeAcrossFiles.threshold))) := by
  simp only [getCommentContentForExclusion]
  cases he : policy.dedupeAcrossFiles.enabled <;> cases latchIn <;>
    cases hc : decide ((((filterCommentsByPolicy runComments policy).2.length : Nat) : Rat) >
      policy.dedupeAcrossFiles.threshold) <;>
    simp_all

/-- Witness for C4: with cross-file dedup enabled, threshold 0, an unset
latch and one confidence-passing run comment, the latch trips and the
exclusion list is the file comments followed by the run comments. -/
theorem getCommentContentForExclusion_spec_witness :
    (getCommentContentForExclusion [⟨"A", 0, none, none, none, none⟩]
        [⟨"B", 0, none, none, none, none⟩]
        ⟨⟨true, true, true⟩, false, ⟨false, 0⟩, ⟨true, 0⟩, ⟨[], none⟩⟩ false).1 =
      ["A", "B"] :=
  ((getCommentContentForExclusion_spec [⟨"A", 0, none, none, none, none⟩]
        [⟨"B", 0, none, none, none, none⟩]
        ⟨⟨true, true, true⟩, false, ⟨false, 0⟩, ⟨true, 0⟩, ⟨[], none⟩⟩ false).2.2.1
      rfl (by norm_num [getCommentContentForExclusion, filterCommentsByPolicy])).trans rfl

/-! ## Helper lemmas: confidence filter -/

/-- The keep-condition of the confidence filter: a finding passes when it has
no confidence value or its confidence is not below the minimum. -/
def passesConfidence (minimum : Rat) (f : Finding) : Bool :=
  match f.confidence with
  | some c => !decide (c < minimum)
  | none => true

theorem applyConfidenceFilter_go_eq (policy : ReviewPolicy) (l : List Finding) :
    applyConfidenceFilterToFindings.go policy l =
      (l.filter (passesConfidence policy.confidence.minimum),
       l.filter fun f => !passesConfidence policy.confidence.minimum f) := by
  induction l with
  | nil => rfl
  | cons f rest ih =>
    simp only [applyConfidenceFilterToFindings.go, ih, List.filter_cons]
    cases hc : f.confidence with
    | none => simp [passesConfidence, hc]
    | some c =>
      by_cases hlt : c < policy.confidence.minimum <;>
        simp [passesConfidence, hc, hlt]

theorem applyConfidenceFilter_disabled {policy : ReviewPolicy}
    (h : policy.confidence.enabled = false) (l : List Finding) :
    applyConfidenceFilterToFindings l policy = (l, []) := by
  simp [applyConfidenceFilterToFindings, h]

theorem applyConfidenceFilter_enabled {policy : ReviewPolicy}
    (h : policy.confidence.enabled = true) (l : List Finding) :
    applyConfidenceFilterToFindings l policy =
      (l.filter (passesConfidence policy.confidence.minimum),
       l.filter fun f => !passesConfidence policy.confidence.minimum f) := by
  simp [applyConfidenceFilterToFindings, h, applyConfidenceFilter_go_eq]

theorem applyConfidenceFilter_remaining_subset {policy : ReviewPolicy} {l : List Finding}
    {f : Finding} (h : f ∈ (applyConfidenceFilterToFindings l policy).1) : f ∈ l := by
  cases he : policy.confidence.enabled
  · rw [applyConfidenceFilter_disabled he] at h
    exact h
  · rw [applyConfidenceFilter_enabled he] at h
    exact List.mem_of_mem_filter h

theorem applyConfidenceFilter_filteredOut_subset {policy : ReviewPolicy} {l : List Finding}
    {f : Finding} (h : f ∈ (applyConfidenceFilterToFindings l policy).2) : f ∈ l := by
  cases he : policy.confidence.enabled
  · rw [applyConfidenceFilter_disabled he] at h
    simp at h
  · rw [applyConfidenceFilter_enabled he] at h
    exact List.mem_of_mem_filter h

theorem applyConfidenceFilter_perm (policy : ReviewPolicy) (l : List Finding) :
    ((applyConfidenceFilterToFindings l policy).1 ++
      (applyConfidenceFilterToFindings l policy).2).Perm l := by
  cases he : policy.confidence.enabled
  · rw [applyConfidenceFilter_disabled he]
    simp
  · rw [applyConfidenceFilter_enabled he]
    exact List.filter_append_perm _ l

/-! ## Helper lemmas: dedupe loop -/

theorem dedupeLoop_deduped_mem {prevSigs : List String} {fs : List Finding}
    {seen : List String} {f' : Finding}
    (h : f' ∈ (dedupeLoop prevSigs fs seen).deduped) :
    ∃ f ∈ fs, f' = { f with id := findingSignature f } := by
  induction fs generalizing seen with
  | nil => simp [dedupeLoop] at h
  | cons f rest ih =>
    simp only [dedupeLoop] at h
    split at h
    · obtain ⟨g, hg, hfg⟩ := ih h
      exact ⟨g, List.mem_cons_of_mem _ hg, hfg⟩
    · rcases List.mem_cons.mp h with h1 | h1
      · exact ⟨f, List.mem_cons_self _ _, h1⟩
      · obtain ⟨g, hg, hfg⟩ := ih h1
        exact ⟨g, List.mem_cons_of_mem _ hg, hfg⟩

theorem dedupeLoop_removed_subset {prevSigs : List String} {fs : List Finding}
    {seen : List String} {f' : Finding}
    (h : f' ∈ (dedupeLoop prevSigs fs seen).removed) : f' ∈ fs := by
  induction fs generalizing seen with
  | nil => simp [dedupeLoop] at h
  | cons f rest ih =>
    simp only [dedupeLoop] at h
    split at h
    · rcases List.mem_cons.mp h with h1 | h1
      · exact h1 ▸ List.mem_cons_self _ _
      · exact List.mem_cons_of_mem _ (ih h1)
    · exact List.mem_cons_of_mem _ (ih h)

/-- A finding with its `id` and `sourceThread` erased: deduplication assigns
ids and the engine strips source threads, so partition statements compare
findings modulo these two fields. -/
def plainFinding (f : Finding) : Finding :=
  { f with id := "", sourceThread := none }

theorem dedupeLoop_perm_plain (prevSigs : List String) (fs : List Finding)
    (seen : List String) :
    ((dedupeLoop prevSigs fs seen).deduped.map plainFinding ++
      (dedupeLoop prevSigs fs seen).removed.map plainFinding).Perm
      (fs.map plainFinding) := by
  induction fs generalizing seen with
  | nil => simp [dedupeLoop]
  | cons f rest ih =>
    simp only [dedupeLoop]
    split
    · simp only [List.map_cons]
      exact (List.perm_middle.trans ((ih seen).cons (plainFinding f))).symm.symm
    · simp only [List.map_cons, List.cons_append]
      have : plainFinding { f with id := findingSignature f } = plainFinding f := rfl
      rw [this]
      exact (ih _).cons (plainFinding f)

/-! ## Helper lemmas: engine fold invariants -/

theorem foldl_findings_invariant (parse : String → GitDiff)
    (llm : LlmReviewRequest → LlmReviewResponse) (policy : ReviewPolicy)
    (prev : Option (List PreviousComment)) (P : Finding → Prop)
    (hid : ∀ f s, P f → P { f with id := s })
    (files : List FileDiff) (st : RunState)
    (hst : ∀ f ∈ st.findings, P f)
    (hkeep : ∀ st' file, file ∈ files →
      ∀ f ∈ (applyConfidenceFilterToFindings
          (fileThreadFindings parse llm policy prev st' file) policy).1, P f) :
    ∀ f ∈ (files.foldl (processFile parse llm policy prev) st).findings, P f := by
  induction files generalizing st with
  | nil => exact hst
  | cons file rest ih =>
    simp only [List.foldl_cons]
    refine ih _ ?_ fun st' fl hfl => hkeep st' fl (List.mem_cons_of_mem _ hfl)
    intro f hf
    simp only [processFile] at hf
    rcases List.mem_append.mp hf with h1 | h1
    · exact hst f h1
    · obtain ⟨g, hg, rfl⟩ := dedupeLoop_deduped_mem h1
      exact hid g _ (hkeep st file (List.mem_cons_self _ _) g hg)

theorem foldl_filteredOut_invariant (parse : String → GitDiff)
    (llm : LlmReviewRequest → LlmReviewResponse) (policy : ReviewPolicy)
    (prev : Option (List PreviousComment)) (P : Finding → Prop)
    (files : List FileDiff) (st : RunState)
    (hst : ∀ f ∈ st.filteredOut, P f)
    (hall : ∀ st' file, file ∈ files →
      ∀ f ∈ fileThreadFindings parse llm policy prev st' file, P f) :
    ∀ f ∈ (files.foldl (processFile parse llm policy prev) st).filteredOut, P f := by
  induction files generalizing st with
  | nil => exact hst
  | cons file rest ih =>
    simp only [List.foldl_cons]
    refine ih _ ?_ fun st' fl hfl => hall st' fl (List.mem_cons_of_mem _ hfl)
    intro f hf
    simp only [processFile] at hf
    rcases List.mem_append.mp hf with h1 | h1
    · rcases List.mem_append.mp h1 with h2 | h2
      · exact hst f h2
      · exact hall st file (List.mem_cons_self _ _) f
          (applyConfidenceFilter_filteredOut_subset h2)
    · exact hall st file (List.mem_cons_self _ _) f
        (applyConfidenceFilter_remaining_subset (dedupeLoop_removed_subset h1))

/-! ## C7: the confidence-filter step -/

/-- C7: with confidence filtering disabled nothing is moved to filtered-out;
with it enabled the step keeps exactly the findings passing the confidence
condition, so every finding with a defined confidence below the minimum is
moved to filtered-out (and never reaches the report's `findings`), while
findings without a confidence value are always kept. -/
theorem applyConfidenceFilterToFindings_spec (findings : List Finding)
    (policy : ReviewPolicy) :
    let r := applyConfidenceFilterToFindings findings policy
    (policy.confidence.enabled = false → r = (findings, [])) ∧
    (policy.confidence.enabled = true →
      r.1 = findings.filter (passesConfidence policy.confidence.minimum) ∧
      r.2 = findings.filter fun f => !passesConfidence policy.confidence.minimum f) ∧
    (∀ f ∈ findings, f.confidence = none → f ∈ r.1) ∧
    (policy.confidence.enabled = true → ∀ f ∈ findings, ∀ c, f.confidence = some c →
      c < policy.confidence.minimum → f ∈ r.2 ∧ f ∉ r.1) ∧
    (∀ parse input llm, input.policy.confidence.enabled = true →
      ∀ f ∈ (reviewCode parse input llm).findings, ∀ c, f.confidence = some c →
        ¬c < input.policy.confidence.minimum) := by
  refine ⟨fun h => applyConfidenceFilter_disabled h findings,
    fun h => by rw [applyConfidenceFilter_enabled h]; exact ⟨rfl, rfl⟩, ?_, ?_, ?_⟩
  · intro f hf hc
    cases he : policy.confidence.enabled
    · rw [applyConfidenceFilter_disabled he]
      exact hf
    · rw [applyConfidenceFilter_enabled he]
      exact List.mem_filter.mpr ⟨hf, by simp [passesConfidence, hc]⟩
  · intro he f hf c hc hlt
    rw [applyConfidenceFilter_enabled he]
    constructor
    · exact List.mem_filter.mpr ⟨hf, by simp [passesConfidence, hc, hlt]⟩
    · intro hmem
      have := (List.mem_filter.mp hmem).2
      simp [passesConfidence, hc, hlt] at this
  · intro parse input llm he f hf c hc
    have hP : ∀ g ∈ (reviewCode parse input llm).findings, ∀ c', g.confidence = some c' →
        ¬c' < input.policy.confidence.minimum := by
      intro g hg
      simp only [reviewCode] at hg
      split at hg
      · simp at hg
      · simp only [stripSourceThreads, List.mem_map] at hg
        obtain ⟨g₀, hg₀, rfl⟩ := hg
        have := foldl_findings_invariant parse llm input.policy input.previousComments
          (fun f => ∀ c', f.confidence = some c' → ¬c' < input.policy.confidence.minimum)
          (fun f s hPf => hPf) input.files RunState.initial (by simp [RunState.initial])
          (fun st' file _ f hf c' hc' => by
            rw [applyConfidenceFilter_enabled he] at hf
            have := (List.mem_filter.mp hf).2
            simp only [passesConfidence, hc'] at this
            simpa using this)
          g₀ hg₀
        simpa using this
    exact hP f hf c hc

/-- Witness for C7: with the confidence filter enabled at minimum 0.8, a
finding with confidence 0.1 lands in the filtered-out component. -/
theorem applyConfidenceFilterToFindings_spec_witness :
    { id := "", filePath := "/a.ts", severity := Severity.medium, title := "t",
      content := "X", confidence := some (1 / 10) } ∈
      (applyConfidenceFilterToFindings
        [{ id := "", filePath := "/a.ts", severity := Severity.medium, title := "t",
           content := "X", confidence := some (1 / 10) }]
        ⟨⟨true, true, true⟩, false, ⟨true, 8 / 10⟩, ⟨false, 0⟩, ⟨[], none⟩⟩).2 :=
  ((applyConfidenceFilterToFindings_spec
      [{ id := "", filePath := "/a.ts", severity := Severity.medium, title := "t",
         content := "X", confidence := some (1 / 10) }]
      ⟨⟨true, true, true⟩, false, ⟨true, 8 / 10⟩, ⟨false, 0⟩, ⟨[], none⟩⟩).2.2.2.1
    rfl _ (List.mem_cons_self _ _) (1 / 10) rfl (by norm_num)).1

/-! ## C5: diagnostic recovery for unusable model output -/

theorem firstIndexOfList_append_self (a b : List Char) :
    (firstIndexOfList (a ++ b) b).isSome = true := by
  induction a with
  | nil =>
    cases b with
    | nil => simp [firstIndexOfList]
    | cons c t =>
      simp only [List.nil_append, firstIndexOfList]
      rw [if_pos (List.isPrefixOf_iff_prefix.mpr (List.prefix_refl _))]
      rfl
  | cons c t ih =>
    simp only [List.cons_append, firstIndexOfList]
    split
    · rfl
    · simpa using ih

/-- A string contains any of its suffixes (used for the diagnostic snippet
containment facts). -/
theorem jsIncludes_append_self (a b : String) : jsIncludes (a ++ b) b = true := by
  simpa [jsIncludes, String.data] using firstIndexOfList_append_self a.data b.data

/-- C5 (amended): whenever no JSON object is found in the model output, or
JSON parsing fails, or the parsed value fails shape validation, the gateway
returns the single synthetic diagnostic thread whose one comment has
confidence 1.0 and issue type BUG; the comment carries the failure reason in
all three cases, but the truncated raw-output snippet only in the first two
(the shape-validation diagnostic is the fixed reason string without a
snippet). -/
theorem openAiHandleModelOutput_spec (parseJson : String → Option Json)
    (filePath choice : String) :
    let snippet := jsTake choice 800
    let noJsonMsg :=
      "LLM_OUTPUT_PARSE_ERROR: No JSON object found in output. Output snippet:\n" ++ snippet
    let badJsonMsg :=
      "LLM_OUTPUT_PARSE_ERROR: Failed to parse JSON. Output snippet:\n" ++ snippet
    let shapeMsg := "LLM_OUTPUT_INVALID_SHAPE: missing threads[]"
    (∀ fp it msg,
      (diagnosticThread fp it msg).threads.map
          (fun t => t.comments.map fun c => (c.content, c.confidenceScore, c.issueType)) =
        [[(msg, some 1, some it)]]) ∧
    (tryExtractJsonObject choice = none →
      openAiHandleModelOutput parseJson filePath choice =
          diagnosticThread filePath "BUG" noJsonMsg ∧
        jsIncludes noJsonMsg snippet = true) ∧
    (∀ ex, tryExtractJsonObject choice = some ex → parseJson ex = none →
      openAiHandleModelOutput parseJson filePath choice =
          diagnosticThread filePath "BUG" badJsonMsg ∧
        jsIncludes badJsonMsg snippet = true) ∧
    (∀ ex v, tryExtractJsonObject choice = some ex → parseJson ex = some v →
      isValidResponse v = false →
      openAiHandleModelOutput parseJson filePath choice =
        diagnosticThread filePath "BUG" shapeMsg) := by
  refine ⟨fun fp it msg => rfl, ?_, ?_, ?_⟩
  · intro hx
    exact ⟨by simp [openAiHandleModelOutput, hx], jsIncludes_append_self _ _⟩
  · intro ex hx hp
    exact ⟨by simp [openAiHandleModelOutput, hx, hp], jsIncludes_append_self _ _⟩
  · intro ex v hx hp hv
    simp [openAiHandleModelOutput, hx, hp, hv]

/-- Witness for C5: a model output without any brace triggers the no-JSON
diagnostic with the raw output embedded, and a parse failure (modelled by a
parser returning `none`) triggers the parse-failure diagnostic. -/
theorem openAiHandleModelOutput_spec_witness :
    openAiHandleModelOutput (fun _ => none) "/f.ts" "plain text" =
      diagnosticThread "/f.ts" "BUG"
        ("LLM_OUTPUT_PARSE_ERROR: No JSON object found in output. Output snippet:\n" ++
          jsTake "plain text" 800) :=
  ((openAiHandleModelOutput_spec (fun _ => none) "/f.ts" "plain text").2.1
    (by decide)).1

/-- The behaviour of the host's `JSON.parse` at the single string this file's
shape-validation counterexample feeds to it: parsing the text that
`tryExtractJsonObject` extracts from the probe output yields an object whose
`threads` field is the number 0 (not an array).  `JSON.parse` is external
host functionality, so only the input actually exercised is modelled. -/
def jsonParseShapeProbe : String → Option Json := fun s =>
  if s = "\x7b\"threads\":0\x7d" then some (Json.obj [("threads", Json.num 0)]) else none

/-- The raw model output used by the shape-validation counterexample. -/
def shapeProbeChoice : String := "AB\x7b\"threads\":0\x7d"

/-- Counterexample to C5 as stated: on output whose extracted JSON parses but
fails shape validation, the diagnostic comment is the fixed reason string and
does NOT carry the truncated raw-output snippet. -/
theorem openAiHandleModelOutput_shape_no_snippet :
    openAiHandleModelOutput jsonParseShapeProbe "/file.ts" shapeProbeChoice =
      diagnosticThread "/file.ts" "BUG" "LLM_OUTPUT_INVALID_SHAPE: missing threads[]" ∧
    ((openAiHandleModelOutput jsonParseShapeProbe "/file.ts" shapeProbeChoice).threads.map
        fun t => t.comments.map (·.content)) =
      [["LLM_OUTPUT_INVALID_SHAPE: missing threads[]"]] ∧
    jsIncludes "LLM_OUTPUT_INVALID_SHAPE: missing threads[]"
        (jsTake shapeProbeChoice 800) = false := by
  refine ⟨by decide, by decide, by decide⟩

/-! ## Helper lemmas: closest-line search -/

/-- The side-appropriate line number of a candidate record (total on the
records `filterChanges` returns). -/
def sideLineD (isRight : Bool) (c : AnyLineChange) : Rat :=
  (getLineNumber c isRight).getD 0

/-- Distance of a candidate's side line number to the approximate line. -/
def lineDist (isRight : Bool) (orig : Rat) (c : AnyLineChange) : Rat :=
  |sideLineD isRight c - orig|

theorem filterChanges_mem {changes : List AnyLineChange} {s : String} {r : Bool}
    {c : AnyLineChange} (h : c ∈ filterChanges changes s r) :
    c ∈ changes ∧ (getLineNumber c r).isSome = true ∧ jsIncludes c.content s = true := by
  have hmem := List.mem_of_mem_filter h
  have hp := List.of_mem_filter h
  simp only [Bool.and_eq_true] at hp
  refine ⟨hmem, ?_, hp.1⟩
  cases c with
  | added _ _ =>
    cases r
    · simp at hp
    · simp [getLineNumber]
  | deleted _ _ =>
    cases r
    · simp [getLineNumber]
    · simp at hp
  | unchanged _ _ _ =>
    cases r <;> simp [getLineNumber]

theorem closerLine_eq {r : Bool} {prevLine cur : AnyLineChange} (orig : Rat)
    (hp : (getLineNumber prevLine r).isSome = true)
    (hc : (getLineNumber cur r).isSome = true) :
    closerLine orig r prevLine cur =
      if lineDist r orig cur < lineDist r orig prevLine then cur else prevLine := by
  obtain ⟨p, hp'⟩ := Option.isSome_iff_exists.mp hp
  obtain ⟨c, hc'⟩ := Option.isSome_iff_exists.mp hc
  simp [closerLine, hp', hc', lineDist, sideLineD]

theorem foldl_closerLine_firstMin (orig : Rat) (r : Bool) (l : List AnyLineChange)
    (b : AnyLineChange) (hb : (getLineNumber b r).isSome = true)
    (hl : ∀ c ∈ l, (getLineNumber c r).isSome = true) :
    (∀ c ∈ b :: l, lineDist r orig (l.foldl (closerLine orig r) b) ≤ lineDist r orig c) ∧
    ((b :: l).filter fun c =>
        decide (lineDist r orig c = lineDist r orig (l.foldl (closerLine orig r) b))).head? =
      some (l.foldl (closerLine orig r) b) := by
  induction l generalizing b with
  | nil =>
    constructor
    · intro c hc
      rcases List.mem_singleton.mp hc with rfl
      exact le_refl _
    · simp
  | cons c t ih =>
    have hc : (getLineNumber c r).isSome = true := hl c (List.mem_cons_self _ _)
    have hstep : List.foldl (closerLine orig r) b (c :: t) =
        List.foldl (closerLine orig r) (closerLine orig r b c) t := rfl
    rw [hstep, closerLine_eq orig hb hc]
    by_cases hlt : lineDist r orig c < lineDist r orig b
    · rw [if_pos hlt]
      obtain ⟨hmin, hhead⟩ := ih c hc fun x hx => hl x (List.mem_cons_of_mem _ hx)
      set res := List.foldl (closerLine orig r) c t with hres
      have hresc : lineDist r orig res ≤ lineDist r orig c :=
        hmin c (List.mem_cons_self _ _)
      constructor
      · intro x hx
        rcases List.mem_cons.mp hx with rfl | hx
        · exact le_of_lt (lt_of_le_of_lt hresc hlt)
        · exact hmin x hx
      · have hbne : decide (lineDist r orig b = lineDist r orig res) = false := by
          simp only [decide_eq_false_iff_not]
          intro heq
          exact absurd (heq ▸ hresc) (not_le_of_lt hlt)
        simpa [List.filter_cons, hbne] using hhead
    · rw [if_neg hlt]
      push_neg at hlt
      obtain ⟨hmin, hhead⟩ := ih b hb fun x hx => hl x (List.mem_cons_of_mem _ hx)
      set res := List.foldl (closerLine orig r) b t with hres
      have hresb : lineDist r orig res ≤ lineDist r orig b :=
        hmin b (List.mem_cons_self _ _)
      constructor
      · intro x hx
        rcases List.mem_cons.mp hx with rfl | hx
        · exact hresb
        rcases List.mem_cons.mp hx with rfl | hx
        · exact le_trans hresb hlt
        · exact hmin x (List.mem_cons_of_mem _ hx)
      · by_cases hbeq : lineDist r orig b = lineDist r orig res
        · have hbP : decide (lineDist r orig b = lineDist r orig res) = true := by
            simpa using hbeq
          rw [List.filter_cons_of_pos] at hhead ⊢
          · have : b = res := by simpa using hhead
            simp only [List.filter_cons]
            rw [List.head?_cons] at *
            exact hhead
          · exact hbP
          · exact hbP
        · have hbP : decide (lineDist r orig b = lineDist r orig res) = false := by
            simpa using hbeq
          have hcP : decide (lineDist r orig c = lineDist r orig res) = false := by
            simp only [decide_eq_false_iff_not]
            intro heq
            exact hbeq (le_antisymm (heq ▸ hlt) hresb)
          rw [List.filter_cons_of_neg] at hhead
          · simpa [List.filter_cons, hbP, hcP] using hhead
          · simpa using hbeq

theorem mem_of_head?_eq_some {α : Type} {l : List α} {a : α}
    (h : l.head? = some a) : a ∈ l := by
  cases l with
  | nil => simp at h
  | cons x xs =>
    simp only [List.head?_cons, Option.some.injEq] at h
    exact h ▸ List.mem_cons_self x xs

theorem findClosestLine_spec (lines : List AnyLineChange) (orig : Rat) (r : Bool)
    (hl : ∀ c ∈ lines, (getLineNumber c r).isSome = true) :
    (lines = [] → findClosestLine lines orig r = none) ∧
    (∀ m, findClosestLine lines orig r = some m →
      m ∈ lines ∧ (∀ c ∈ lines, lineDist r orig m ≤ lineDist r orig c) ∧
      (lines.filter fun c => decide (lineDist r orig c = lineDist r orig m)).head? =
        some m) := by
  constructor
  · rintro rfl
    rfl
  · intro m hm
    cases lines with
    | nil => simp [findClosestLine] at hm
    | cons l₀ rest =>
      have hfirst : List.foldl (closerLine orig r) l₀ (l₀ :: rest) =
          List.foldl (closerLine orig r) l₀ rest := by
        have h0 : (getLineNumber l₀ r).isSome = true := hl l₀ (List.mem_cons_self _ _)
        simp only [List.foldl_cons, closerLine_eq orig h0 h0, lt_irrefl, if_neg,
          not_false_iff]
      simp only [findClosestLine, hfirst, Option.some.injEq] at hm
      subst hm
      obtain ⟨hmin, hhead⟩ := foldl_closerLine_firstMin orig r rest l₀
        (hl l₀ (List.mem_cons_self _ _)) fun c hc => hl c (List.mem_cons_of_mem _ hc)
      exact ⟨List.mem_of_mem_filter (mem_of_head?_eq_some hhead), hmin, hhead⟩

theorem getLineNumberAndOffset_of_some {parsedDiff : GitDiff} {s : String} {orig : Rat}
    {r : Bool} {m : AnyLineChange}
    (hm : findClosestLine (filterChanges (getChangesFromDiff parsedDiff) s r) orig r =
      some m)
    (hsome : (getLineNumber m r).isSome = true) :
    getLineNumberAndOffset parsedDiff s orig r =
      some (sideLineD r m, (jsIndexOf m.content s : Rat) + 1) := by
  obtain ⟨ln, hln⟩ := Option.isSome_iff_exists.mp hsome
  simp [getLineNumberAndOffset, getGitDiffLine, hm, hln, sideLineD]

/-- C2: for a start position carrying a snippet, `updateFileStartAndEnd`
matches the snippet's first line against the first parsed file's records that
are Unchanged or the side-appropriate changed type and contain that line; if
there is no match both positions are returned untouched; otherwise the chosen
record is the one whose side line number is closest to the approximate start
line (ties keeping the first candidate in diff order), the start moves to
that record's line with offset the 1-based index of the line within the
record's content, the end moves to the same line with offset = start offset +
first-line length, and for multiline snippets the end is recomputed the same
way from the last snippet line.  The final conjunct lifts the right-side case
to `fixThreadPositions`. -/
theorem updateFileStartAndEnd_spec (parsedDiff : GitDiff) (isRight : Bool)
    (fileStart fileEnd : Position) (snip : String) (pieces : List String)
    (firstLine : String) (cands : List AnyLineChange)
    (hsnip : fileStart.snippet = some snip)
    (hpieces : pieces = splitNewlineRuns snip)
    (hfirst : firstLine = pieces.headD "")
    (hcands : cands = filterChanges (getChangesFromDiff parsedDiff) firstLine isRight) :
    (cands = [] →
      updateFileStartAndEnd fileStart fileEnd parsedDiff isRight = (fileStart, fileEnd)) ∧
    (∀ m, findClosestLine cands fileStart.line isRight = some m →
      (m ∈ cands ∧ jsIncludes m.content firstLine = true ∧
        (∀ c ∈ cands,
          |sideLineD isRight m - fileStart.line| ≤ |sideLineD isRight c - fileStart.line|) ∧
        (cands.filter fun c => decide (lineDist isRight fileStart.line c =
            lineDist isRight fileStart.line m)).head? = some m) ∧
      (updateFileStartAndEnd fileStart fileEnd parsedDiff isRight).1 =
        { fileStart with
          line := sideLineD isRight m
          offset := (jsIndexOf m.content firstLine : Rat) + 1 } ∧
      (pieces.length ≤ 1 →
        (updateFileStartAndEnd fileStart fileEnd parsedDiff isRight).2 =
          { fileEnd with
            line := sideLineD isRight m
            offset := (jsIndexOf m.content firstLine : Rat) + 1 +
              (firstLine.length : Rat) }) ∧
      (1 < pieces.length →
        (findClosestLine (filterChanges (getChangesFromDiff parsedDiff)
            (pieces.getLastD "") isRight) (sideLineD isRight m) isRight = none →
          (updateFileStartAndEnd fileStart fileEnd parsedDiff isRight).2 =
            { fileEnd with
              line := sideLineD isRight m
              offset := (jsIndexOf m.content firstLine : Rat) + 1 +
                (firstLine.length : Rat) }) ∧
        (∀ m2, findClosestLine (filterChanges (getChangesFromDiff parsedDiff)
            (pieces.getLastD "") isRight) (sideLineD isRight m) isRight = some m2 →
          (updateFileStartAndEnd fileStart fileEnd parsedDiff isRight).2 =
            { fileEnd with
              line := sideLineD isRight m2
              offset := (jsIndexOf m2.content (pieces.getLastD "") : Rat) + 1 +
                ((pieces.getLastD "").length : Rat) }))) ∧
    (isRight = true → ∀ t : ReviewThread,
      t.threadContext.right = some (fileStart, fileEnd) →
      t.threadContext.left = none → snip.length ≠ 0 →
      fixThreadPositions [t] parsedDiff =
        [{ t with threadContext := { t.threadContext with
             right := some (updateFileStartAndEnd fileStart fileEnd parsedDiff true) } }]) := by
  subst hcands
  subst hfirst
  subst hpieces
  have hcsome : ∀ c ∈ filterChanges (getChangesFromDiff parsedDiff)
      ((splitNewlineRuns snip).headD "") isRight, (getLineNumber c isRight).isSome = true :=
    fun c hc => (filterChanges_mem hc).2.1
  refine ⟨?_, ?_, ?_⟩
  · intro hnil
    have h0 : getLineNumberAndOffset parsedDiff ((splitNewlineRuns snip).headD "")
        fileStart.line isRight = none := by
      simp only [getLineNumberAndOffset, getGitDiffLine]
      rw [hnil]
      rfl
    simp only [updateFileStartAndEnd, hsnip, Option.getD_some, h0]
  · intro m hm
    have hmspec := (findClosestLine_spec _ fileStart.line isRight hcsome).2 m hm
    have hmsome : (getLineNumber m isRight).isSome = true := hcsome m hmspec.1
    have hoff := getLineNumberAndOffset_of_some
      (s := (splitNewlineRuns snip).headD "") hm hmsome
    refine ⟨⟨hmspec.1, (filterChanges_mem hmspec.1).2.2, hmspec.2.1, hmspec.2.2⟩,
      ?_, ?_, ?_⟩
    · simp only [updateFileStartAndEnd, hsnip, Option.getD_some, hoff]
      by_cases hlen : (splitNewlineRuns snip).length > 1 <;> simp [hlen]
    · intro hle
      have hlen : ¬(splitNewlineRuns snip).length > 1 := by omega
      simp only [updateFileStartAndEnd, hsnip, Option.getD_some, hoff]
      simp [hlen]
    · intro hgt
      constructor
      · intro hnone
        have h0 : getLineNumberAndOffset parsedDiff ((splitNewlineRuns snip).getLastD "")
            (sideLineD isRight m) isRight = none := by
          simp only [getLineNumberAndOffset, getGitDiffLine, hnone]
        simp only [updateFileStartAndEnd, hsnip, Option.getD_some, hoff, gt_iff_lt, hgt,
          if_true, updateFileEndForMultilineSnippet, h0]
      · intro m2 hm2
        have hcsome2 : ∀ c ∈ filterChanges (getChangesFromDiff parsedDiff)
            ((splitNewlineRuns snip).getLastD "") isRight,
            (getLineNumber c isRight).isSome = true :=
          fun c hc => (filterChanges_mem hc).2.1
        have hm2mem := ((findClosestLine_spec _ (sideLineD isRight m) isRight hcsome2).2
          m2 hm2).1
        have hoff2 := getLineNumberAndOffset_of_some
          (s := (splitNewlineRuns snip).getLastD "") hm2 (hcsome2 m2 hm2mem)
        simp only [updateFileStartAndEnd, hsnip, Option.getD_some, hoff, gt_iff_lt, hgt,
          if_true, updateFileEndForMultilineSnippet, hoff2]
  · rintro rfl t hright hleft hlen
    simp only [fixThreadPositions, List.map_cons, List.map_nil]
    have h1 : fixThreadContextLineNumberAndOffsets t.threadContext parsedDiff true =
        { t.threadContext with
            right := some (updateFileStartAndEnd fileStart fileEnd parsedDiff true) } := by
      simp [fixThreadContextLineNumberAndOffsets, hright, hsnip, hlen]
    have h2 : fixThreadContextLineNumberAndOffsets
        ({ t.threadContext with
            right := some (updateFileStartAndEnd fileStart fileEnd parsedDiff true) })
        parsedDiff false =
        { t.threadContext with
            right := some (updateFileStartAndEnd fileStart fileEnd parsedDiff true) } := by
      simp [fixThreadContextLineNumberAndOffsets, hleft]
    rw [h1, h2]

/-- The parsed diff of the spec's PositionFixer example: a hunk that leaves
one line unchanged and introduces `  const x = 1;` as new line 2543. -/
def c2ExampleDiff : GitDiff :=
  ⟨[⟨[AnyChunk.chunk [AnyLineChange.unchanged "before" 2541 2541,
      AnyLineChange.added "  const x = 1;" 2543,
      AnyLineChange.added "other" 2544]]⟩]⟩

/-- The example thread's approximate right-side start position. -/
def c2ExampleStart : Position :=
  { line := 2540, offset := 1, snippet := some "const x = 1;" }

/-- The example thread's approximate right-side end position. -/
def c2ExampleEnd : Position := { line := 2540, offset := 1 }

/-- Witness for C2: on the spec's example the start position is corrected to
line 2543 with offset 3, the 1-based index of `const x = 1;` inside
`  const x = 1;`. -/
theorem updateFileStartAndEnd_spec_witness :
    (updateFileStartAndEnd c2ExampleStart c2ExampleEnd c2ExampleDiff true).1 =
      { line := 2543, offset := 3, snippet := some "const x = 1;" } := by
  have h := ((updateFileStartAndEnd_spec c2ExampleDiff true c2ExampleStart c2ExampleEnd
      "const x = 1;" ["const x = 1;"] "const x = 1;"
      [AnyLineChange.added "  const x = 1;" 2543]
      rfl (by decide) rfl (by decide)).2.1
    (AnyLineChange.added "  const x = 1;" 2543)
    (by simp [findClosestLine, closerLine, getLineNumber])).2.1
  rw [h]
  have hidx : jsIndexOf "  const x = 1;" "const x = 1;" = 2 := by decide
  simp only [sideLineD, getLineNumber, AnyLineChange.content, Option.getD_some, hidx,
    c2ExampleStart]
  norm_num

/-! ## C10: only the first parsed file is searched -/

theorem getLineNumberAndOffset_congr {d d' : GitDiff}
    (h : getChangesFromDiff d = getChangesFromDiff d') (s : String) (orig : Rat)
    (r : Bool) : getLineNumberAndOffset d s orig r = getLineNumberAndOffset d' s orig r := by
  simp only [getLineNumberAndOffset, getGitDiffLine, h]

theorem updateFileStartAndEnd_congr {d d' : GitDiff}
    (h : getChangesFromDiff d = getChangesFromDiff d') (s e : Position) (r : Bool) :
    updateFileStartAndEnd s e d r = updateFileStartAndEnd s e d' r := by
  simp only [updateFileStartAndEnd, updateFileEndForMultilineSnippet,
    getLineNumberAndOffset_congr h]

theorem fixThreadPositions_congr {d d' : GitDiff}
    (h : getChangesFromDiff d = getChangesFromDiff d') (threads : List ReviewThread) :
    fixThreadPositions threads d = fixThreadPositions threads d' := by
  simp only [fixThreadPositions, fixThreadContextLineNumberAndOffsets,
    updateFileStartAndEnd_congr h]

/-- When a side's start/end pair is already the value the update would
produce, re-attaching it leaves the context unchanged. -/
theorem threadContext_right_eta (ctx : ThreadContext) (p : Position × Position)
    (h : ctx.right = some p) : { ctx with right := some p } = ctx := by
  cases ctx
  simp_all

/-- C10: with more than one file in the parsed diff, `fixThreadPositions`
consults only the first file's line records — the result is the same as for
a diff containing just the first file — and a (right-side) snippet whose
first line occurs in no record of the first file produces no match, leaving
the thread untouched, regardless of matches in later files. -/
theorem fixThreadPositions_firstFileOnly (d : GitDiff) (f₀ : GitDiffFile)
    (rest : List GitDiffFile) (hd : d.files = f₀ :: rest) (hrest : rest ≠ [])
    (threads : List ReviewThread) :
    (getChangesFromDiff d = getChangesFromDiff ⟨[f₀]⟩) ∧
    (fixThreadPositions threads d = fixThreadPositions threads ⟨[f₀]⟩) ∧
    (∀ t : ReviewThread, ∀ s e : Position, ∀ snip : String,
      t.threadContext.left = none → t.threadContext.right = some (s, e) →
      s.snippet = some snip →
      (∀ c ∈ getChangesFromDiff ⟨[f₀]⟩,
        jsIncludes c.content ((splitNewlineRuns snip).headD "") = false) →
      fixThreadPositions [t] d = [t]) := by
  have hch : getChangesFromDiff d = getChangesFromDiff ⟨[f₀]⟩ := by
    simp only [getChangesFromDiff, hd]
  refine ⟨hch, fixThreadPositions_congr hch threads, ?_⟩
  intro t s e snip hleft hright hsnip hnomatch
  have hcands : filterChanges (getChangesFromDiff d) ((splitNewlineRuns snip).headD "")
      true = [] := by
    rw [hch]
    refine List.filter_eq_nil_iff.mpr fun c hc => ?_
    have h := hnomatch c hc
    intro hp
    rw [Bool.and_eq_true] at hp
    rw [hp.1] at h
    exact absurd h (by decide)
  have hnone : getLineNumberAndOffset d ((splitNewlineRuns snip).headD "") s.line
      true = none := by
    simp only [getLineNumberAndOffset, getGitDiffLine, hcands, findClosestLine]
  have hupd : updateFileStartAndEnd s e d true = (s, e) := by
    simp only [updateFileStartAndEnd, hsnip, Option.getD_some, hnone]
  simp only [fixThreadPositions, List.map_cons, List.map_nil]
  have h1 : fixThreadContextLineNumberAndOffsets t.threadContext d true =
      t.threadContext := by
    simp only [fixThreadContextLineNumberAndOffsets, if_true, hright, hsnip]
    split
    · rw [hupd]
      exact threadContext_right_eta _ _ hright
    · rfl
  have h2 : fixThreadContextLineNumberAndOffsets t.threadContext d false =
      t.threadContext := by
    simp [fixThreadContextLineNumberAndOffsets, hleft]
  rw [h1, h2]

/-- The two-file diff of the C10 witness: the snippet text occurs only in the
second file's changes. -/
def c10Diff : GitDiff :=
  ⟨[⟨[AnyChunk.chunk [AnyLineChange.added "first file line" 10]]⟩,
    ⟨[AnyChunk.chunk [AnyLineChange.added "needle line" 20]]⟩]⟩

/-- The C10 witness thread: right side at approximate line 19 with snippet
`needle line`, which only the second file contains. -/
def c10Thread : ReviewThread :=
  { status := 1
    threadContext :=
      { filePath := "/a.ts"
        right := some ({ line := 19, offset := 1, snippet := some "needle line" },
          { line := 19, offset := 1 }) }
    comments := [{ content := "X", commentType := 0 }] }

/-- Witness for C10: the snippet occurring only in the second file produces
no match, so the thread is returned unchanged. -/
theorem fixThreadPositions_firstFileOnly_witness :
    fixThreadPositions [c10Thread] c10Diff = [c10Thread] :=
  (fixThreadPositions_firstFileOnly c10Diff
      ⟨[AnyChunk.chunk [AnyLineChange.added "first file line" 10]]⟩
      [⟨[AnyChunk.chunk [AnyLineChange.added "needle line" 20]]⟩] rfl (by decide)
      [c10Thread]).2.2 c10Thread
    { line := 19, offset := 1, snippet := some "needle line" }
    { line := 19, offset := 1 } "needle line" rfl rfl rfl (by decide)

/-! ## C3: the final dedup step -/

/-- The content signature of a finding: the stable hash of its file path and
trimmed content (the signature `dedupeAgainstPrevious` computes for the
engine's findings, whose `id` is still empty). -/
def findingContentSignature (f : Finding) : String :=
  buildFindingSignature (some f.filePath) f.content

/-- The drop condition characterizing the final dedup positionally: a finding
(paired with the list of findings preceding it in this call) is dropped
exactly when its signature occurs among the previous-comment signatures, the
run-level set passed in, or the signatures of its predecessors (the first of
several equal signatures is the one kept, so any predecessor with the same
signature forces a drop). -/
def dedupeDropCondition (prevSigs seen₀ : List String)
    (p : List Finding × Finding) : Bool :=
  prevSigs.contains (findingContentSignature p.2) ||
    seen₀.contains (findingContentSignature p.2) ||
    (p.1.map findingContentSignature).contains (findingContentSignature p.2)

theorem findingSignature_of_id_empty {f : Finding} (h : f.id = "") :
    findingSignature f = findingContentSignature f := by
  simp [findingSignature, findingContentSignature, h]

theorem dedupeLoop_eq_filter (prevSigs : List String) (fs : List Finding)
    (seen : List String) (hids : ∀ f ∈ fs, f.id = "") :
    (dedupeLoop prevSigs fs seen).removed =
      ((fs.inits.zip fs).filter (dedupeDropCondition prevSigs seen)).map (·.2) ∧
    (dedupeLoop prevSigs fs seen).deduped =
      ((fs.inits.zip fs).filter fun p => !dedupeDropCondition prevSigs seen p).map
        fun p => { p.2 with id := findingContentSignature p.2 } := by
  induction fs generalizing seen with
  | nil => exact ⟨rfl, rfl⟩
  | cons f t ih =>
    have hsig : findingSignature f = findingContentSignature f :=
      findingSignature_of_id_empty (hids f (List.mem_cons_self _ _))
    have hzip : ((f :: t).inits.zip (f :: t)) =
        ([], f) :: (t.inits.zip t).map (Prod.map (f :: ·) id) := by
      rw [List.inits_cons, List.zip_cons_cons, List.zip_map_left]
    have hids' : ∀ g ∈ t, g.id = "" := fun g hg => hids g (List.mem_cons_of_mem _ hg)
    by_cases hcond : (seen.contains (findingContentSignature f) ||
        prevSigs.contains (findingContentSignature f)) = true
    · have hdrop : dedupeDropCondition prevSigs seen ([], f) = true := by
        simp only [dedupeDropCondition]
        rcases Bool.or_eq_true_iff.mp hcond with h | h <;> rw [h] <;> simp
      have hshift : ∀ p ∈ t.inits.zip t,
          dedupeDropCondition prevSigs seen (Prod.map (f :: ·) id p) =
            dedupeDropCondition prevSigs seen p := by
        intro p hp
        simp only [dedupeDropCondition, Prod.map_snd, Prod.map_fst, id_eq,
          List.map_cons, List.contains_cons]
        by_cases heq : (findingContentSignature p.2 == findingContentSignature f) = true
        · rw [eq_of_beq heq]
          rcases Bool.or_eq_true_iff.mp hcond with h | h <;> rw [h] <;> simp
        · rw [Bool.eq_false_iff.mpr heq]
          simp
      have hmapfilter : ((t.inits.zip t).map (Prod.map (f :: ·) id)).filter
            (dedupeDropCondition prevSigs seen) =
          ((t.inits.zip t).filter (dedupeDropCondition prevSigs seen)).map
            (Prod.map (f :: ·) id) := by
        rw [List.filter_map]
        have hcongr : (t.inits.zip t).filter
              (dedupeDropCondition prevSigs seen ∘ Prod.map (f :: ·) id) =
            (t.inits.zip t).filter (dedupeDropCondition prevSigs seen) :=
          List.filter_congr fun p hp => by
            simpa only [Function.comp_apply] using hshift p hp
        rw [hcongr]
      have hmapfilter' : ((t.inits.zip t).map (Prod.map (f :: ·) id)).filter
            (fun p => !dedupeDropCondition prevSigs seen p) =
          ((t.inits.zip t).filter fun p => !dedupeDropCondition prevSigs seen p).map
            (Prod.map (f :: ·) id) := by
        rw [List.filter_map]
        have hcongr : (t.inits.zip t).filter
              ((fun p => !dedupeDropCondition prevSigs seen p) ∘ Prod.map (f :: ·) id) =
            (t.inits.zip t).filter (fun p => !dedupeDropCondition prevSigs seen p) :=
          List.filter_congr fun p hp => by
            simp only [Function.comp_apply]
            rw [hshift p hp]
        rw [hcongr]
      have hloop : dedupeLoop prevSigs (f :: t) seen =
          ⟨(dedupeLoop prevSigs t seen).deduped, f :: (dedupeLoop prevSigs t seen).removed,
           (dedupeLoop prevSigs t seen).seen⟩ := by
        simp only [dedupeLoop, hsig]
        rw [if_pos hcond]
      obtain ⟨ihr, ihd⟩ := ih seen hids'
      rw [hloop, hzip]
      constructor
      · show f :: (dedupeLoop prevSigs t seen).removed = _
        rw [List.filter_cons, if_pos hdrop, List.map_cons, ihr, hmapfilter, List.map_map]
        rfl
      · show (dedupeLoop prevSigs t seen).deduped = _
        rw [List.filter_cons, if_neg (by simp [hdrop]), ihd, hmapfilter', List.map_map]
        rfl
    · have hnotseen : seen.contains (findingContentSignature f) = false :=
        Bool.eq_false_iff.mpr fun h => hcond (by rw [h]; simp)
      have hnotprev : prevSigs.contains (findingContentSignature f) = false :=
        Bool.eq_false_iff.mpr fun h => hcond (by rw [h]; simp)
      have hdrop : dedupeDropCondition prevSigs seen ([], f) = false := by
        simp only [dedupeDropCondition]
        rw [hnotseen, hnotprev]
        simp
      have hshift : ∀ p ∈ t.inits.zip t,
          dedupeDropCondition prevSigs seen (Prod.map (f :: ·) id p) =
            dedupeDropCondition prevSigs (findingContentSignature f :: seen) p := by
        intro p hp
        simp only [dedupeDropCondition, Prod.map_snd, Prod.map_fst, id_eq,
          List.map_cons, List.contains_cons]
        cases prevSigs.contains (findingContentSignature p.2) <;>
          cases seen.contains (findingContentSignature p.2) <;>
          cases (findingContentSignature p.2 == findingContentSignature f) <;>
          cases (p.1.map findingContentSignature).contains (findingContentSignature p.2) <;>
          rfl
      have hmapfilter : ((t.inits.zip t).map (Prod.map (f :: ·) id)).filter
            (dedupeDropCondition prevSigs seen) =
          ((t.inits.zip t).filter
            (dedupeDropCondition prevSigs (findingContentSignature f :: seen))).map
            (Prod.map (f :: ·) id) := by
        rw [List.filter_map]
        have hcongr : (t.inits.zip t).filter
              (dedupeDropCondition prevSigs seen ∘ Prod.map (f :: ·) id) =
            (t.inits.zip t).filter
              (dedupeDropCondition prevSigs (findingContentSignature f :: seen)) :=
          List.filter_congr fun p hp => by
            simpa only [Function.comp_apply] using hshift p hp
        rw [hcongr]
      have hmapfilter' : ((t.inits.zip t).map (Prod.map (f :: ·) id)).filter
            (fun p => !dedupeDropCondition prevSigs seen p) =
          ((t.inits.zip t).filter fun p =>
            !dedupeDropCondition prevSigs (findingContentSignature f :: seen) p).map
            (Prod.map (f :: ·) id) := by
        rw [List.filter_map]
        have hcongr : (t.inits.zip t).filter
              ((fun p => !dedupeDropCondition prevSigs seen p) ∘ Prod.map (f :: ·) id) =
            (t.inits.zip t).filter fun p =>
              !dedupeDropCondition prevSigs (findingContentSignature f :: seen) p :=
          List.filter_congr fun p hp => by
            simp only [Function.comp_apply]
            rw [hshift p hp]
        rw [hcongr]
      have hloop : dedupeLoop prevSigs (f :: t) seen =
          ⟨{ f with id := findingContentSignature f } ::
             (dedupeLoop prevSigs t (findingContentSignature f :: seen)).deduped,
           (dedupeLoop prevSigs t (findingContentSignature f :: seen)).removed,
           (dedupeLoop prevSigs t (findingContentSignature f :: seen)).seen⟩ := by
        simp only [dedupeLoop, hsig]
        rw [if_neg hcond]
      obtain ⟨ihr, ihd⟩ := ih (findingContentSignature f :: seen) hids'
      rw [hloop, hzip]
      constructor
      · show (dedupeLoop prevSigs t (findingContentSignature f :: seen)).removed = _
        rw [List.filter_cons, if_neg (by simp [hdrop]), ihr, hmapfilter, List.map_map]
        rfl
      · show { f with id := findingContentSignature f } :: _ = _
        rw [List.filter_cons, if_pos (by simp [hdrop]), List.map_cons, ihd, hmapfilter',
          List.map_map]
        rfl

theorem dedupeLoop_seen_contains (prevSigs : List String) (fs : List Finding)
    (seen : List String) (s : String) :
    (dedupeLoop prevSigs fs seen).seen.contains s =
      (seen.contains s ||
        ((dedupeLoop prevSigs fs seen).deduped.map (·.id)).contains s) := by
  induction fs generalizing seen with
  | nil => simp [dedupeLoop]
  | cons f t ih =>
    simp only [dedupeLoop]
    split
    · exact ih seen
    · simp only [List.map_cons, List.contains_cons]
      rw [ih (findingSignature f :: seen)]
      simp only [List.contains_cons]
      cases (s == findingSignature f) <;> cases seen.contains s <;> rfl

/-- C3: in the final dedup, each finding's signature is the stable hash of
(filePath, trimmed content); a finding is dropped exactly when its signature
already occurs among the caller-supplied previous-comment signatures, the
run-level signature set passed in, or an earlier finding of this call (first
occurrence wins); kept findings get the signature assigned as their id, and
the run-level set afterwards contains exactly the old set plus the kept ids. -/
theorem dedupeAgainstPrevious_spec (findings : List Finding)
    (previousComments : Option (List PreviousComment)) (seen₀ : List String)
    (hids : ∀ f ∈ findings, f.id = "") :
    (∀ fp c, buildFindingSignature fp c = sha256Hex ((fp.getD "") ++ "|" ++ jsTrim c)) ∧
    (dedupeAgainstPrevious findings previousComments seen₀).removed =
      ((findings.inits.zip findings).filter
        (dedupeDropCondition ((previousComments.getD []).map fun c =>
          buildFindingSignature c.filePath c.content) seen₀)).map (·.2) ∧
    (dedupeAgainstPrevious findings previousComments seen₀).deduped =
      ((findings.inits.zip findings).filter fun p =>
        !dedupeDropCondition ((previousComments.getD []).map fun c =>
          buildFindingSignature c.filePath c.content) seen₀ p).map
        (fun p => { p.2 with id := findingContentSignature p.2 }) ∧
    (∀ s, (dedupeAgainstPrevious findings previousComments seen₀).seen.contains s =
      (seen₀.contains s ||
        ((dedupeAgainstPrevious findings previousComments seen₀).deduped.map
          (·.id)).contains s)) := by
  have h := dedupeLoop_eq_filter ((previousComments.getD []).map fun c =>
    buildFindingSignature c.filePath c.content) findings seen₀ hids
  exact ⟨fun fp c => rfl, h.1, h.2, fun s => dedupeLoop_seen_contains _ _ _ s⟩

/-- A minimal finding fixture used by the C3 witness. -/
def c3Finding (c : String) : Finding :=
  { id := "", filePath := "/a.ts", severity := Severity.medium, title := "t", content := c }

/-- Witness for C3: of three findings (two with content `X`, one with
content `Y` that matches a previous comment), the duplicate `X` and the
previously-posted `Y` are removed — the first `X` wins. -/
theorem dedupeAgainstPrevious_spec_witness :
    (dedupeAgainstPrevious [c3Finding "X", c3Finding "X", c3Finding "Y"]
        (some [{ filePath := some "/a.ts", content := "Y" }]) []).removed =
      [c3Finding "X", c3Finding "Y"] :=
  ((dedupeAgainstPrevious_spec [c3Finding "X", c3Finding "X", c3Finding "Y"]
      (some [{ filePath := some "/a.ts", content := "Y" }]) []
      (by decide)).2.1).trans (by decide)

/-! ## C6: path normalization -/

theorem jsStartsWith_slash_append (p : String) : jsStartsWith ("/" ++ p) "/" = true := by
  simp [jsStartsWith, String.data_append, List.isPrefixOf]

theorem normalizePath_startsWith (p : String) :
    jsStartsWith (normalizePath p) "/" = true := by
  by_cases h : jsStartsWith p "/" = true
  · simp [normalizePath, h]
  · rw [normalizePath, if_neg h]
    exact jsStartsWith_slash_append p

theorem fileThreadFindings_filePath {parse : String → GitDiff}
    {llm : LlmReviewRequest → LlmReviewResponse} {policy : ReviewPolicy}
    {prev : Option (List PreviousComment)} {st : RunState} {file : FileDiff} {f : Finding}
    (h : f ∈ fileThreadFindings parse llm policy prev st file) :
    f.filePath = normalizePath file.path := by
  simp only [fileThreadFindings, List.mem_flatMap] at h
  obtain ⟨th, _, hf⟩ := h
  simp only [threadToFindings, List.mem_map] at hf
  obtain ⟨c, _, rfl⟩ := hf
  rfl

/-- C6 (amended): `normalizePath` makes every path begin with the leading
separator; every finding in the returned report (kept or filtered out)
carries a path with the leading separator; a previous comment differing from
a file's path only by the missing leading separator is matched by the
engine's exclusion-list selection (which compares normalized paths); but the
previous-comment signatures of the final dedup hash the raw `filePath`, so
such a comment's signature differs from the normalized finding's signature
and does NOT match in the final dedup. -/
theorem pathNormalization_spec :
    (∀ p, jsStartsWith (normalizePath p) "/" = true) ∧
    (∀ p, jsStartsWith p "/" = false →
      normalizePath p = "/" ++ p ∧ normalizePath ("/" ++ p) = "/" ++ p) ∧
    (∀ parse input llm (f : Finding), (f ∈ (reviewCode parse input llm).findings ∨
        f ∈ (reviewCode parse input llm).filteredOut) →
      jsStartsWith f.filePath "/" = true) ∧
    (∀ p c, jsStartsWith p "/" = false →
      buildFindingSignature (some p) c ≠ buildFindingSignature (some (normalizePath p)) c) := by
  refine ⟨normalizePath_startsWith, ?_, ?_, ?_⟩
  · intro p hp
    refine ⟨by rw [normalizePath, if_neg (by simp [hp])], ?_⟩
    rw [normalizePath, if_pos (jsStartsWith_slash_append p)]
  · intro parse input llm f hf
    simp only [reviewCode] at hf
    split at hf
    · rcases hf with h | h <;> simp at h
    · have hfind := foldl_findings_invariant parse llm input.policy input.previousComments
        (fun g => jsStartsWith g.filePath "/" = true) (fun g s hg => hg)
        input.files RunState.initial (by simp [RunState.initial])
        (fun st' file _ g hg => by
          show jsStartsWith g.filePath "/" = true
          rw [fileThreadFindings_filePath
            (applyConfidenceFilter_remaining_subset hg)]
          exact normalizePath_startsWith file.path)
      have hfilt := foldl_filteredOut_invariant parse llm input.policy
        input.previousComments (fun g => jsStartsWith g.filePath "/" = true)
        input.files RunState.initial (by simp [RunState.initial])
        (fun st' file _ g hg => by
          show jsStartsWith g.filePath "/" = true
          rw [fileThreadFindings_filePath hg]
          exact normalizePath_startsWith file.path)
      rcases hf with h | h <;>
        · simp only [stripSourceThreads, List.mem_map] at h
          obtain ⟨g, hg, rfl⟩ := h
          first
          | exact hfind g hg
          | exact hfilt g hg
  · intro p c hp heq
    rw [(by rw [normalizePath, if_neg (by simp [hp])] : normalizePath p = "/" ++ p)] at heq
    have hlen := congrArg String.length heq
    have hone : ("/" : String).length = 1 := rfl
    simp only [buildFindingSignature, sha256Hex, Option.getD_some,
      String.length_append, hone] at hlen
    omega

/-- The constant LLM stub for the C6 counterexample: one thread with a single
comment `X` on `/a.ts`. -/
def c6Llm : LlmReviewRequest → LlmReviewResponse := fun _ =>
  { threads := [{ status := 1
                  threadContext := { filePath := "/a.ts" }
                  comments := [{ content := "X", commentType := 0 }] }] }

/-- Policy with confidence filtering and cross-file dedup disabled. -/
def plainPolicy : ReviewPolicy :=
  { checks := ⟨true, true, true⟩, modifiedLinesOnly := false, confidence := ⟨false, 0⟩,
    dedupeAcrossFiles := ⟨false, 0⟩, prompts := ⟨[], none⟩ }

/-- A diff parser stub returning an empty parsed diff (no thread in these
runs carries a snippet, so the parsed diff is never consulted). -/
def emptyParse : String → GitDiff := fun _ => ⟨[]⟩

/-- Counterexample to C6 as stated: a previous comment whose `filePath` lacks
only the leading separator produces a different dedup signature than the
normalized finding, so the finding survives (findings length 1), whereas the
same previous comment with the separator dedups it away (findings length 0) —
even though both match the file for exclusion-list selection
(`normalizePath` equates them). -/
theorem previousComment_path_mismatch :
    buildFindingSignature (some "a.ts") "X" ≠ buildFindingSignature (some "/a.ts") "X" ∧
    normalizePath "a.ts" = normalizePath "/a.ts" ∧
    (reviewCode emptyParse
      ⟨[⟨"/a.ts", ""⟩], plainPolicy, some [{ filePath := some "a.ts", content := "X" }]⟩
      c6Llm).findings.length = 1 ∧
    (reviewCode emptyParse
      ⟨[⟨"/a.ts", ""⟩], plainPolicy, some [{ filePath := some "/a.ts", content := "X" }]⟩
      c6Llm).findings.length = 0 :=
  ⟨by decide, by decide, by decide, by decide⟩

/-- Witness for C6 (amended): `a.ts` lacks the separator, normalizes to
`/a.ts`, and its raw-path signature differs from the normalized-path one. -/
theorem pathNormalization_spec_witness :
    normalizePath "a.ts" = "/" ++ "a.ts" ∧
    buildFindingSignature (some "a.ts") "X" ≠
      buildFindingSignature (some (normalizePath "a.ts")) "X" :=
  ⟨(pathNormalization_spec.2.1 "a.ts" (by decide)).1,
   pathNormalization_spec.2.2.2 "a.ts" "X" (by decide)⟩

/-! ## C1: partition of generated findings and the summary sentence -/

/-- The file loop extended with a ghost accumulator collecting every finding
generated (flattened from the sanitized threads) across the run. -/
def processFileWithGenerated (parse : String → GitDiff)
    (llm : LlmReviewRequest → LlmReviewResponse) (policy : ReviewPolicy)
    (prev : Option (List PreviousComment)) (p : RunState × List Finding)
    (file : FileDiff) : RunState × List Finding :=
  (processFile parse llm policy prev p.1 file,
   p.2 ++ fileThreadFindings parse llm policy prev p.1 file)

/-- All findings generated during a run of `reviewCode` on the given input. -/
def generatedFindings (parse : String → GitDiff) (input : ReviewInput)
    (llm : LlmReviewRequest → LlmReviewResponse) : List Finding :=
  (input.files.foldl
    (processFileWithGenerated parse llm input.policy input.previousComments)
    (RunState.initial, [])).2

theorem foldl_withGenerated_fst (parse : String → GitDiff)
    (llm : LlmReviewRequest → LlmReviewResponse) (policy : ReviewPolicy)
    (prev : Option (List PreviousComment)) (files : List FileDiff)
    (st : RunState) (gen : List Finding) :
    (files.foldl (processFileWithGenerated parse llm policy prev) (st, gen)).1 =
      files.foldl (processFile parse llm policy prev) st := by
  induction files generalizing st gen with
  | nil => rfl
  | cons file rest ih => exact ih _ _

theorem dedupeAgainstPrevious_perm_plain (fs : List Finding)
    (prev : Option (List PreviousComment)) (seen : List String) :
    ((dedupeAgainstPrevious fs prev seen).deduped.map plainFinding ++
      (dedupeAgainstPrevious fs prev seen).removed.map plainFinding).Perm
      (fs.map plainFinding) :=
  dedupeLoop_perm_plain _ fs seen

theorem foldl_partition_perm (parse : String → GitDiff)
    (llm : LlmReviewRequest → LlmReviewResponse) (policy : ReviewPolicy)
    (prev : Option (List PreviousComment)) (files : List FileDiff)
    (st : RunState) (gen : List Finding)
    (h : ((st.findings ++ st.filteredOut).map plainFinding).Perm
      (gen.map plainFinding)) :
    (((files.foldl (processFileWithGenerated parse llm policy prev) (st, gen)).1.findings ++
        (files.foldl (processFileWithGenerated parse llm policy prev)
          (st, gen)).1.filteredOut).map plainFinding).Perm
      (((files.foldl (processFileWithGenerated parse llm policy prev)
        (st, gen)).2).map plainFinding) := by
  induction files generalizing st gen with
  | nil => exact h
  | cons file rest ih =>
    refine ih _ _ ?_
    have hG := fileThreadFindings parse llm policy prev st file
    have hconf := applyConfidenceFilter_perm policy
      (fileThreadFindings parse llm policy prev st file)
    have hdd := dedupeAgainstPrevious_perm_plain
      (applyConfidenceFilterToFindings
        (fileThreadFindings parse llm policy prev st file) policy).1
      prev st.seenSignatures
    rw [← Multiset.coe_eq_coe] at h hdd ⊢
    have hconf' := Multiset.coe_eq_coe.mpr
      (hconf.map plainFinding)
    simp only [processFile, processFileWithGenerated, List.map_append,
      ← Multiset.coe_add, List.map_map] at h hdd hconf' ⊢
    rw [← h, ← hconf', ← hdd]
    abel

/-- C1 (amended): for every input with at least one file, the returned
report's `findings` and `filteredOut` together are — up to the id assigned by
dedup and the stripped `sourceThread` backlink — a permutation of all
generated findings (each generated finding lands in exactly one of the two
lists), and the summary markdown is exactly the sentence
`Findings: R (F filtered out, total generated T).` with `R = |findings|`,
`F = |filteredOut|` and `T = R + F`.  (An empty file list instead
short-circuits to the fixed `No files to review.` report.) -/
theorem reviewCode_partition_summary (parse : String → GitDiff) (input : ReviewInput)
    (llm : LlmReviewRequest → LlmReviewResponse) (hne : input.files ≠ []) :
    (((reviewCode parse input llm).findings ++
        (reviewCode parse input llm).filteredOut).map plainFinding).Perm
      ((generatedFindings parse input llm).map plainFinding) ∧
    (reviewCode parse input llm).summaryMarkdown =
      "Findings: " ++ toString (reviewCode parse input llm).findings.length ++ " (" ++
        toString (reviewCode parse input llm).filteredOut.length ++
        " filtered out, total generated " ++
        toString ((reviewCode parse input llm).findings.length +
          (reviewCode parse input llm).filteredOut.length) ++ ")." := by
  have hnemp : input.files.isEmpty = false := by
    cases hf : input.files with
    | nil => exact absurd hf hne
    | cons a l => rfl
  constructor
  · have hperm := foldl_partition_perm parse llm input.policy input.previousComments
      input.files RunState.initial [] (by simp [RunState.initial])
    rw [foldl_withGenerated_fst] at hperm
    simp only [reviewCode, hnemp, Bool.false_eq_true, if_neg, not_false_iff,
      stripSourceThreads, generatedFindings]
    have hplain : ∀ l : List Finding,
        (l.map fun f => { f with sourceThread := none }).map plainFinding =
          l.map plainFinding := by
      intro l
      rw [List.map_map]
      rfl
    rw [List.map_append, hplain, hplain, ← List.map_append]
    exact hperm
  · simp only [reviewCode, hnemp, Bool.false_eq_true, if_neg, not_false_iff,
      stripSourceThreads, summarize, computeSummary, List.length_map]

/-- Counterexample to C1 as stated over every input: the empty file list
short-circuits to the fixed `No files to review.` summary, not the
`Findings: ...` sentence. -/
theorem reviewCode_empty_summary :
    (reviewCode emptyParse ⟨[], plainPolicy, none⟩ c6Llm).summaryMarkdown =
      "No files to review." ∧
    "No files to review." ≠ "Findings: 0 (0 filtered out, total generated 0)." :=
  ⟨rfl, by decide⟩

/-- The C1 witness stub: one thread carrying two comments. -/
def c1Llm : LlmReviewRequest → LlmReviewResponse := fun _ =>
  { threads := [{ status := 1
                  threadContext := { filePath := "/a.ts" }
                  comments := [{ content := "X", commentType := 0 },
                    { content := "Y", commentType := 0 }] }] }

/-- Witness for C1 (amended): a one-file run with a two-comment thread under
a disabled confidence filter keeps both findings, and the summary reads
`Findings: 2 (0 filtered out, total generated 2).`. -/
theorem reviewCode_partition_summary_witness :
    (reviewCode emptyParse ⟨[⟨"/a.ts", ""⟩], plainPolicy, none⟩ c1Llm).summaryMarkdown =
      "Findings: 2 (0 filtered out, total generated 2)." :=
  ((reviewCode_partition_summary emptyParse ⟨[⟨"/a.ts", ""⟩], plainPolicy, none⟩ c1Llm
    (by decide)).2).trans (by decide)

/-! ## C9: idempotent dedup across runs -/

/-- An LLM client built from a stub that depends only on the file path and
diff — "returning the same threads for the same file each time" regardless of
the exclusion list. -/
def stubLlm (stub : String → String → LlmReviewResponse) :
    LlmReviewRequest → LlmReviewResponse :=
  fun r => stub r.filePath r.diff

/-- The sanitized threads such a stub produces for one file (independent of
the run state). -/
def stubThreads (parse : String → GitDiff) (stub : String → String → LlmReviewResponse)
    (file : FileDiff) : List ReviewThread :=
  fixThreadPositions (stub (normalizePath file.path) file.diff).threads (parse file.diff)

/-- The findings generated for one file under such a stub. -/
def stubFileFindings (parse : String → GitDiff)
    (stub : String → String → LlmReviewResponse) (file : FileDiff) : List Finding :=
  (stubThreads parse stub file).flatMap fun th =>
    threadToFindings th (normalizePath file.path)

/-- The confidence-passing findings for one file under such a stub. -/
def stubRemaining (parse : String → GitDiff)
    (stub : String → String → LlmReviewResponse) (policy : ReviewPolicy)
    (file : FileDiff) : List Finding :=
  (applyConfidenceFilterToFindings (stubFileFindings parse stub file) policy).1

theorem processFile_stub (parse : String → GitDiff)
    (stub : String → String → LlmReviewResponse) (policy : ReviewPolicy)
    (prev : Option (List PreviousComment)) (st : RunState) (file : FileDiff) :
    processFile parse (stubLlm stub) policy prev st file =
      { findings := st.findings ++
          (dedupeAgainstPrevious (stubRemaining parse stub policy file) prev
            st.seenSignatures).deduped
        filteredOut := st.filteredOut ++
          (applyConfidenceFilterToFindings (stubFileFindings parse stub file) policy).2 ++
          (dedupeAgainstPrevious (stubRemaining parse stub policy file) prev
            st.seenSignatures).removed
        runComments := st.runComments ++
          (stubThreads parse stub file).flatMap (·.comments)
        seenSignatures := (dedupeAgainstPrevious (stubRemaining parse stub policy file)
          prev st.seenSignatures).seen
        dedupeCriteriaMet := (getCommentContentForExclusion
          (previousFileCommentsFor prev file.path) st.runComments policy
          st.dedupeCriteriaMet).2 } := by
  simp only [processFile, fileThreadFindings, fileSanitizedThreads, stubRemaining,
    stubFileFindings, stubThreads, stubLlm, buildLlmRequest]

theorem mem_dedupeLoop_seen_of_mem {prevSigs : List String} {fs : List Finding}
    {seen : List String} {s : String} (h : s ∈ seen) :
    s ∈ (dedupeLoop prevSigs fs seen).seen := by
  induction fs generalizing seen with
  | nil => exact h
  | cons f t ih =>
    simp only [dedupeLoop]
    split
    · exact ih h
    · exact ih (List.mem_cons_of_mem _ h)

theorem mem_dedupeLoop_seen_covers {prevSigs : List String} {fs : List Finding}
    (hprev : ∀ f ∈ fs, findingSignature f ∉ prevSigs) :
    ∀ {seen : List String}, ∀ f ∈ fs, findingSignature f ∈ (dedupeLoop prevSigs fs seen).seen := by
  induction fs with
  | nil =>
    intro seen f hf
    simp at hf
  | cons g t ih =>
    intro seen f hf
    simp only [dedupeLoop]
    split
    · rcases List.mem_cons.mp hf with rfl | hf'
      · rename_i hcond
        rcases Bool.or_eq_true_iff.mp hcond with h | h
        · exact mem_dedupeLoop_seen_of_mem (List.mem_of_elem_eq_true h)
        · exact absurd (List.mem_of_elem_eq_true h)
            (hprev f (List.mem_cons_self _ _))
      · exact ih (fun x hx => hprev x (List.mem_cons_of_mem _ hx)) f hf'
    · rcases List.mem_cons.mp hf with rfl | hf'
      · exact mem_dedupeLoop_seen_of_mem (List.mem_cons_self _ _)
      · exact ih (fun x hx => hprev x (List.mem_cons_of_mem _ hx)) f hf'

theorem mem_dedupeLoop_seen_elim {prevSigs : List String} {fs : List Finding}
    {seen : List String} {s : String} (h : s ∈ (dedupeLoop prevSigs fs seen).seen) :
    s ∈ seen ∨ s ∈ (dedupeLoop prevSigs fs seen).deduped.map (·.id) := by
  induction fs generalizing seen with
  | nil => exact Or.inl h
  | cons f t ih =>
    simp only [dedupeLoop] at h ⊢
    by_cases hcond : (seen.contains (findingSignature f) ||
        prevSigs.contains (findingSignature f)) = true
    · rw [if_pos hcond] at h ⊢
      exact ih h
    · rw [if_neg hcond] at h ⊢
      rcases ih h with h1 | h1
      · rcases List.mem_cons.mp h1 with rfl | h2
        · exact Or.inr (by simp)
        · exact Or.inl h2
      · refine Or.inr ?_
        simp only [List.map_cons]
        exact List.mem_cons_of_mem _ h1

theorem dedupeLoop_deduped_nil {prevSigs : List String} {fs : List Finding}
    (h : ∀ f ∈ fs, findingSignature f ∈ prevSigs) (seen : List String) :
    (dedupeLoop prevSigs fs seen).deduped = [] := by
  induction fs generalizing seen with
  | nil => rfl
  | cons f t ih =>
    simp only [dedupeLoop]
    rw [if_pos]
    · exact ih (fun x hx => h x (List.mem_cons_of_mem _ hx)) seen
    · simp [h f (List.mem_cons_self _ _)]

theorem stubFileFindings_id_empty {parse : String → GitDiff}
    {stub : String → String → LlmReviewResponse} {file : FileDiff} {f : Finding}
    (h : f ∈ stubFileFindings parse stub file) : f.id = "" := by
  simp only [stubFileFindings, List.mem_flatMap] at h
  obtain ⟨th, _, hf⟩ := h
  simp only [threadToFindings, List.mem_map] at hf
  obtain ⟨c, _, rfl⟩ := hf
  rfl

theorem stubRemaining_id_empty {parse : String → GitDiff}
    {stub : String → String → LlmReviewResponse} {policy : ReviewPolicy}
    {file : FileDiff} {f : Finding} (h : f ∈ stubRemaining parse stub policy file) :
    f.id = "" :=
  stubFileFindings_id_empty (applyConfidenceFilter_remaining_subset h)

theorem foldl_stub_seen_monotone (parse : String → GitDiff)
    (stub : String → String → LlmReviewResponse) (policy : ReviewPolicy)
    (prev : Option (List PreviousComment)) (files : List FileDiff) :
    ∀ (st : RunState) (s : String), s ∈ st.seenSignatures →
      s ∈ (files.foldl (processFile parse (stubLlm stub) policy prev) st).seenSignatures := by
  induction files with
  | nil => exact fun st s h => h
  | cons file rest ih =>
    intro st s h
    simp only [List.foldl_cons]
    apply ih
    rw [processFile_stub]
    exact mem_dedupeLoop_seen_of_mem h

theorem foldl_stub_seen_covers (parse : String → GitDiff)
    (stub : String → String → LlmReviewResponse) (policy : ReviewPolicy)
    (files : List FileDiff) :
    ∀ st : RunState, ∀ file ∈ files, ∀ f ∈ stubRemaining parse stub policy file,
      findingContentSignature f ∈
        (files.foldl (processFile parse (stubLlm stub) policy none) st).seenSignatures := by
  induction files with
  | nil =>
    intro st file hfile
    simp at hfile
  | cons file1 rest ih =>
    intro st file hfile f hf
    simp only [List.foldl_cons]
    rcases List.mem_cons.mp hfile with rfl | hfile'
    · apply foldl_stub_seen_monotone
      rw [processFile_stub]
      rw [← findingSignature_of_id_empty (stubRemaining_id_empty hf)]
      exact mem_dedupeLoop_seen_covers (fun x hx => by simp) f hf
    · exact ih _ file hfile' f hf

theorem foldl_stub_seen_sub (parse : String → GitDiff)
    (stub : String → String → LlmReviewResponse) (policy : ReviewPolicy)
    (prev : Option (List PreviousComment)) (files : List FileDiff) :
    ∀ st : RunState,
      (∀ s ∈ st.seenSignatures, s ∈ st.findings.map findingContentSignature) →
      ∀ s ∈ (files.foldl (processFile parse (stubLlm stub) policy prev)
        st).seenSignatures,
        s ∈ ((files.foldl (processFile parse (stubLlm stub) policy prev)
          st).findings.map findingContentSignature) := by
  induction files with
  | nil => exact fun st h => h
  | cons file rest ih =>
    intro st hst
    simp only [List.foldl_cons]
    apply ih
    intro s hs
    rw [processFile_stub] at hs ⊢
    simp only [List.map_append, List.mem_append]
    rcases mem_dedupeLoop_seen_elim hs with h1 | h1
    · exact Or.inl (hst s h1)
    · refine Or.inr ?_
      simp only [List.mem_map] at h1 ⊢
      obtain ⟨f', hf', rfl⟩ := h1
      obtain ⟨g, hg, rfl⟩ := dedupeLoop_deduped_mem hf'
      refine ⟨{ g with id := findingSignature g }, hf', ?_⟩
      rw [findingSignature_of_id_empty (stubRemaining_id_empty hg)]
      rfl

theorem foldl_stub_findings_nil (parse : String → GitDiff)
    (stub : String → String → LlmReviewResponse) (policy : ReviewPolicy)
    (prev₂ : Option (List PreviousComment)) (files : List FileDiff)
    (hcover : ∀ file ∈ files, ∀ f ∈ stubRemaining parse stub policy file,
      findingContentSignature f ∈
        ((prev₂.getD []).map fun c => buildFindingSignature c.filePath c.content)) :
    ∀ st : RunState, st.findings = [] →
      (files.foldl (processFile parse (stubLlm stub) policy prev₂) st).findings = [] := by
  induction files with
  | nil => exact fun st h => h
  | cons file rest ih =>
    intro st hst
    simp only [List.foldl_cons]
    refine ih (fun fl hfl => hcover fl (List.mem_cons_of_mem _ hfl)) _ ?_
    rw [processFile_stub, hst]
    rw [show (dedupeAgainstPrevious (stubRemaining parse stub policy file) prev₂
        st.seenSignatures).deduped = [] from
      dedupeLoop_deduped_nil (fun f hf => by
        rw [findingSignature_of_id_empty (stubRemaining_id_empty hf)]
        exact hcover file (List.mem_cons_self _ _) f hf) _]
    rfl

/-- C9: running `reviewCode` twice with an LLM stub that depends only on the
file path and diff, seeding the second call's `previousComments` from the
first call's findings (their `filePath` and `content`), yields an empty
`findings` list on the second call. -/
theorem reviewCode_dedupe_idempotent (parse : String → GitDiff)
    (stub : String → String → LlmReviewResponse) (files : List FileDiff)
    (policy : ReviewPolicy) :
    (reviewCode parse
      ⟨files, policy,
        some ((reviewCode parse ⟨files, policy, none⟩ (stubLlm stub)).findings.map
          fun f => { filePath := some f.filePath, content := f.content })⟩
      (stubLlm stub)).findings = [] := by
  cases files with
  | nil => rfl
  | cons file0 rest =>
    have hfe : (file0 :: rest).isEmpty = false := rfl
    have hrep1 : (reviewCode parse ⟨file0 :: rest, policy, none⟩ (stubLlm stub)).findings =
        ((file0 :: rest).foldl (processFile parse (stubLlm stub) policy none)
          RunState.initial).findings.map fun f => { f with sourceThread := none } := by
      simp only [reviewCode, hfe, Bool.false_eq_true, if_neg, not_false_iff,
        stripSourceThreads]
    set final1 := (file0 :: rest).foldl (processFile parse (stubLlm stub) policy none)
      RunState.initial with hfinal1
    set prev₂ : Option (List PreviousComment) :=
      some ((reviewCode parse ⟨file0 :: rest, policy, none⟩ (stubLlm stub)).findings.map
        fun f => { filePath := some f.filePath, content := f.content }) with hprev₂
    have hsigs : ((prev₂.getD []).map fun c =>
        buildFindingSignature c.filePath c.content) =
        final1.findings.map findingContentSignature := by
      rw [hprev₂, hrep1]
      simp only [Option.getD_some, List.map_map]
      rfl
    have hcover : ∀ fl ∈ file0 :: rest, ∀ f ∈ stubRemaining parse stub policy fl,
        findingContentSignature f ∈
          ((prev₂.getD []).map fun c => buildFindingSignature c.filePath c.content) := by
      intro fl hfl f hf
      rw [hsigs]
      exact foldl_stub_seen_sub parse stub policy none (file0 :: rest) RunState.initial
        (by simp [RunState.initial]) _
        (foldl_stub_seen_covers parse stub policy (file0 :: rest) RunState.initial
          fl hfl f hf)
    have hnil := foldl_stub_findings_nil parse stub policy prev₂ (file0 :: rest) hcover
      RunState.initial rfl
    simp only [reviewCode, hfe, Bool.false_eq_true, if_neg, not_false_iff,
      stripSourceThreads, hnil, List.map_nil]

end DevopsReviewer